import Mathlib

set_option maxRecDepth 100000

/-!
Verification of the go-dleq cross-group DLEq proof library.

The development is a shallow embedding of the repository's Go sources:

* byte-level helpers (`getBit`, `checkWitnessSize`, `generateRandomBits`) are
  translated from `dleq.go` (the file exposing `NewProof`);
* the group interface (`types.Curve`) is modelled by a `Curve` structure whose
  scalar field is `ZMod q` and whose point group is represented through the
  discrete logarithms of points with respect to an arbitrary base embedding,
  i.e. points are elements of `ZMod q` with `BasePoint = g`, `AltBasePoint = h`
  and `ScalarMul s p = s * p`; encodings, hashing and the per-curve signature
  scheme are abstract fields of the structure, as they are supplied by the
  external curve adapters;
* `generateCommitments`, `generateRingSignature`, `NewProof` (from `dleq.go`),
  `Proof.Verify` (from `verify.go`) and `Serialize`/`Deserialize` (from
  `serde.go`) are translated statement by statement; Go panics are modelled by
  a dedicated failure value, Go error returns by `Option`/error codes;
* the two concrete hash-to-scalar adapters (secp256k1 `HashToScalar` and
  ed25519 `HashToScalar`) and the bespoke ed25519 Schnorr signature are
  modelled over an executable SHA3-512 (Keccak) implementation and over the
  concrete group orders.
-/

namespace DLEq

/-! ### Byte-level helpers -/

/-- Little-endian value of a byte list (the Go code treats the witness as a
32-byte little-endian integer). -/
def leNat (l : List ℕ) : ℕ :=
  l.foldr (fun b acc => b + 256 * acc) 0

/-- Big-endian value of a byte list (`big.Int.SetBytes`). -/
def beNat (l : List ℕ) : ℕ :=
  l.foldl (fun acc b => acc * 256 + b) 0

/-- `getBit` from dleq.go: the bit at little-endian index `i`. -/
def getBit (x : List ℕ) (i : ℕ) : ℕ :=
  (x.getD (i / 8) 0 >>> (i % 8)) &&& 1

/-- `checkWitnessSize` from dleq.go.  `none` models the Go panic (index out of
range, reachable at `bits = 256`), `some false` the error return, `some true`
the `nil` return. -/
def checkWitnessSize (x : List ℕ) (bits : ℕ) : Option Bool :=
  let cleared := 256 - bits
  let bitmask := (0xff <<< (8 - cleared % 8)) % 256
  match x.get? (bits / 8) with
  | none => none
  | some b =>
    if b &&& bitmask ≠ 0 then some false
    else if cleared / 8 = 0 then some true
    else if (x.drop (bits / 8 + 1)).any (· ≠ 0) then some false
    else some true

/-- `generateRandomBits` from dleq.go, with the 32 bytes read from the CSPRNG
passed in explicitly: only the top byte is masked. -/
def generateRandomBits (bits : ℕ) (rng : List ℕ) : List ℕ :=
  rng.set 31 (rng.getD 31 0 &&& (0xff >>> (256 - bits)))

/-! ### The group interface

`types.Curve` is modelled by a structure: the scalar field is `ZMod q` and
the (prime-order, cyclic) point group is represented by the discrete
logarithms of its elements, so a point is again an element of `ZMod q`,
`BasePoint` is `g`, `AltBasePoint` is `h`, point addition is `+` and
`ScalarMul s p` is `s * p`.  Encodings, decodings, hashing and the per-curve
signature scheme are abstract fields, as the Go code obtains them from the
external curve adapters. -/

structure Curve where
  q : ℕ
  q_prime : q.Prime
  bitSize : ℕ
  pointSize : ℕ
  g : ZMod q
  h : ZMod q
  pEnc : ZMod q → List ℕ
  sEnc : ZMod q → List ℕ
  pDec : List ℕ → Option (ZMod q)
  sDec : List ℕ → Option (ZMod q)
  hashToScalar : List ℕ → ZMod q
  sign : ZMod q → ZMod q → List ℕ
  sigVerify : ZMod q → ZMod q → List ℕ → Bool

/-- The `commitment` struct from dleq.go: a blinder and the committed point. -/
structure Commitment (c : Curve) where
  blinder : ZMod c.q
  commitment : ZMod c.q
  deriving DecidableEq

/-- The `ringSignature` struct from dleq.go. -/
structure ringSignature (cA cB : Curve) where
  eCurveA : ZMod cA.q
  eCurveB : ZMod cB.q
  a0 : ZMod cA.q
  a1 : ZMod cA.q
  b0 : ZMod cB.q
  b1 : ZMod cB.q
  deriving DecidableEq

instance (cA cB : Curve) : Inhabited (ringSignature cA cB) :=
  ⟨⟨0, 0, 0, 0, 0, 0⟩⟩

/-- The `bitProof` struct from dleq.go. -/
structure bitProof (cA cB : Curve) where
  commitmentA : Commitment cA
  commitmentB : Commitment cB
  ringSig : ringSignature cA cB
  deriving DecidableEq

/-- The `Proof` struct from dleq.go. -/
structure Proof (cA cB : Curve) where
  CommitmentA : ZMod cA.q
  CommitmentB : ZMod cB.q
  proofs : List (bitProof cA cB)
  signatureA : List ℕ
  signatureB : List ℕ
  deriving DecidableEq

/-! ### Commitment generation (dleq.go `generateCommitments`) -/

/-- The loop of `generateCommitments`: `n` counts the remaining iterations,
`i` is the loop index, `currPow` the running power of two, `sum` the running
weighted blinder sum.  `none` models the panics (zero power of two, nonzero
final sum, zero blinder, zero commitment, failed `rG` sanity check). -/
def genComAux (c : Curve) (x : List ℕ) (bits : ℕ) (rand : ℕ → ZMod c.q) :
    ℕ → ℕ → ZMod c.q → ZMod c.q → Option (List (Commitment c))
  | 0, _, _, _ => some []
  | n + 1, i, currPow, sum =>
    if i = bits - 1 then
      let bl := (-sum) * currPow⁻¹
      if sum + bl * currPow ≠ 0 then none
      else if bl = 0 then none
      else
        let cpt := (getBit x i : ZMod c.q) * c.g + bl * c.h
        if cpt = 0 then none
        else if getBit x i = 0 ∧ cpt ≠ bl * c.h then none
        else
          match genComAux c x bits rand n (i + 1) currPow (sum + bl * currPow) with
          | none => none
          | some rest => some (⟨bl, cpt⟩ :: rest)
    else
      let bl := rand i
      let nextPow := currPow * 2
      if nextPow = 0 then none
      else if bl = 0 then none
      else
        let cpt := (getBit x i : ZMod c.q) * c.g + bl * c.h
        if cpt = 0 then none
        else if getBit x i = 0 ∧ cpt ≠ bl * c.h then none
        else
          match genComAux c x bits rand n (i + 1) nextPow (sum + bl * currPow) with
          | none => none
          | some rest => some (⟨bl, cpt⟩ :: rest)

def generateCommitments (c : Curve) (x : List ℕ) (bits : ℕ)
    (rand : ℕ → ZMod c.q) : Option (List (Commitment c)) :=
  genComAux c x bits rand bits 0 1 0

/-- `verifyCommitmentsSum` from dleq.go: fold the weighted sum starting from
`commitments[0]` with the power of two starting at `2` for `commitments[1:]`.
`none` models the Go panic on an empty slice (`commitments[0]`). -/
def verifyCommitmentsSum (c : Curve) (commitments : List (Commitment c))
    (point : ZMod c.q) : Option Bool :=
  match commitments with
  | [] => none
  | c0 :: rest =>
    let final := rest.foldl
      (fun (acc : ZMod c.q × ZMod c.q) cm =>
        (acc.1 + cm.commitment * acc.2, acc.2 * 2))
      (c0.commitment, 2)
    some (decide (final.1 = point))

/-- Closed form for the blinder `generateCommitments` assigns to index `i`:
the sampled scalar except at the top index, which receives the cancellation
blinder `-(∑_{j<bits-1} r_j·2^j)·(2^{bits-1})⁻¹`. -/
def blinderAt (c : Curve) (rand : ℕ → ZMod c.q) (bits i : ℕ) : ZMod c.q :=
  if i = bits - 1 then
    (-(∑ j ∈ Finset.range (bits - 1), rand j * 2 ^ j)) *
      ((2 : ZMod c.q) ^ (bits - 1))⁻¹
  else rand i

/-- Closed form for the commitment at index `i`: `b_i·G + r_i·H`. -/
def commitAt (c : Curve) (x : List ℕ) (rand : ℕ → ZMod c.q) (bits i : ℕ) :
    ZMod c.q :=
  (getBit x i : ZMod c.q) * c.g + blinderAt c rand bits i * c.h

/-- The weighted commitment sum in the form the specification writes it:
`C_0 + ∑_{i=1..len-1} 2^i · C_i`. -/
def specWeightedSum (c : Curve) (points : List (ZMod c.q)) : ZMod c.q :=
  ∑ i ∈ Finset.range points.length, (2 : ZMod c.q) ^ i * points.getD i 0

/-! ### Ring signatures (dleq.go `generateRingSignature`) -/

/-- The Fiat-Shamir preimage built by `hashToScalar(curve, elements...)` in
dleq.go for the two commitments and two transcript points: the
concatenation of their encodings in order `C_A ∥ C_B ∥ L_A ∥ L_B`. -/
def hashInput (cA cB : Curve) (pA : ZMod cA.q) (pB : ZMod cB.q)
    (tA : ZMod cA.q) (tB : ZMod cB.q) : List ℕ :=
  cA.pEnc pA ++ cB.pEnc pB ++ cA.pEnc tA ++ cB.pEnc tB

/-- `generateRingSignature` from dleq.go.  The sampled scalars are passed in
explicitly: `j`, `k` are the two nonces, `ra`, `rb` the responses sampled
for the simulated branch (`a0`,`b0` when the bit is 0, `a1`,`b1` when it is
1).  `none` models the error return for a bit outside `{0,1}`. -/
def generateRingSignature (cA cB : Curve) (x : ℕ)
    (commitmentA : Commitment cA) (commitmentB : Commitment cB)
    (j : ZMod cA.q) (k : ZMod cB.q) (ra : ZMod cA.q) (rb : ZMod cB.q) :
    Option (ringSignature cA cB) :=
  let jH := j * cA.h
  let kH := k * cB.h
  let eA := cA.hashToScalar
    (hashInput cA cB commitmentA.commitment commitmentB.commitment jH kH)
  let eB := cB.hashToScalar
    (hashInput cA cB commitmentA.commitment commitmentB.commitment jH kH)
  match x with
  | 0 =>
    let a0 := ra
    let b0 := rb
    let commitmentAMinusOne := commitmentA.commitment - cA.g
    let commitmentBMinusOne := commitmentB.commitment - cB.g
    let ecA := eA * commitmentAMinusOne
    let ecB := eB * commitmentBMinusOne
    let bigA0 := a0 * cA.h
    let bigB0 := b0 * cB.h
    let eA0 := cA.hashToScalar (hashInput cA cB commitmentA.commitment
      commitmentB.commitment (bigA0 - ecA) (bigB0 - ecB))
    let eB0 := cB.hashToScalar (hashInput cA cB commitmentA.commitment
      commitmentB.commitment (bigA0 - ecA) (bigB0 - ecB))
    let a1 := j + eA0 * commitmentA.blinder
    let b1 := k + eB0 * commitmentB.blinder
    some ⟨eA0, eB0, a0, a1, b0, b1⟩
  | 1 =>
    let a1 := ra
    let b1 := rb
    let ecA := eA * commitmentA.commitment
    let ecB := eB * commitmentB.commitment
    let bigA0 := a1 * cA.h
    let bigB0 := b1 * cB.h
    let eA1 := cA.hashToScalar (hashInput cA cB commitmentA.commitment
      commitmentB.commitment (bigA0 - ecA) (bigB0 - ecB))
    let eB1 := cB.hashToScalar (hashInput cA cB commitmentA.commitment
      commitmentB.commitment (bigA0 - ecA) (bigB0 - ecB))
    let a0 := j + eA1 * commitmentA.blinder
    let b0 := k + eB1 * commitmentB.blinder
    some ⟨eA, eB, a0, a1, b0, b1⟩
  | _ => none

/-! ### The prover (dleq.go `NewProof`) -/

/-- The scalars `NewProof` draws from the CSPRNG, indexed by loop position:
blinders for each curve, the per-bit nonces `j`, `k` and the per-bit sampled
responses. -/
structure Randomness (cA cB : Curve) where
  rA : ℕ → ZMod cA.q
  rB : ℕ → ZMod cB.q
  js : ℕ → ZMod cA.q
  ks : ℕ → ZMod cB.q
  ras : ℕ → ZMod cA.q
  rbs : ℕ → ZMod cB.q

/-- The proof-assembly loop of `NewProof` (dleq.go lines 89-103): for each
`i < bits`, index both commitment slices and generate the ring signature for
the bit.  `none` covers both a failing ring signature and an out-of-range
index (a Go panic, unreachable from `NewProof`). -/
def buildBitProofs (cA cB : Curve) (x : List ℕ) (rnd : Randomness cA cB)
    (lA : List (Commitment cA)) (lB : List (Commitment cB)) :
    ℕ → ℕ → Option (List (bitProof cA cB))
  | 0, _ => some []
  | n + 1, i =>
    match lA.get? i, lB.get? i with
    | some ca, some cb =>
      match generateRingSignature cA cB (getBit x i) ca cb
          (rnd.js i) (rnd.ks i) (rnd.ras i) (rnd.rbs i) with
      | none => none
      | some rs =>
        match buildBitProofs cA cB x rnd lA lB n (i + 1) with
        | none => none
        | some rest => some (⟨ca, cb, rs⟩ :: rest)
    | _, _ => none

/-- `NewProof` from dleq.go: witness-size check, commitments on both curves
with their sum sanity checks, per-bit ring signatures, and the two
signatures on the commitments.  `none` models every error return and every
panic. -/
def NewProof (cA cB : Curve) (x : List ℕ) (rnd : Randomness cA cB) :
    Option (Proof cA cB) :=
  let bits := min cA.bitSize cB.bitSize
  match checkWitnessSize x bits with
  | some true =>
    let xA : ZMod cA.q := (leNat x : ℕ)
    let xB : ZMod cB.q := (leNat x : ℕ)
    let bigXA := xA * cA.g
    let bigXB := xB * cB.g
    match generateCommitments cA x bits rnd.rA with
    | none => none
    | some commitmentsA =>
      match verifyCommitmentsSum cA commitmentsA bigXA with
      | some true =>
        match generateCommitments cB x bits rnd.rB with
        | none => none
        | some commitmentsB =>
          match verifyCommitmentsSum cB commitmentsB bigXB with
          | some true =>
            match buildBitProofs cA cB x rnd commitmentsA commitmentsB bits 0 with
            | none => none
            | some proofs =>
              some ⟨bigXA, bigXB, proofs, cA.sign xA bigXA, cB.sign xB bigXB⟩
          | _ => none
      | _ => none
  | _ => none

/-! ### The verifier (verify.go `Proof.Verify`) -/

/-- Outcome of `Proof.Verify`: `ok` is the `nil` return, the error cases
follow the order of the checks in verify.go, `crash` models a Go panic
(an out-of-range slice index). -/
inductive VerifyResult where
  | ok
  | sumErrA
  | sumErrB
  | sigErrA
  | sigErrB
  | ringErr (i : ℕ)
  | crash
  deriving DecidableEq

/-- The verifier's challenge recomputation for one bit proof (verify.go
lines 47-104): `T_g = a1·H_g − eCurve_g·C_g`, rehash, then
`U_g = a0·H_g − e'·(C_g − G_g)`, rehash again. -/
def recomputedChallenges (cA cB : Curve) (bp : bitProof cA cB) :
    ZMod cA.q × ZMod cB.q :=
  let aG := bp.ringSig.a1 * cA.h
  let eCA := bp.ringSig.eCurveA * bp.commitmentA.commitment
  let bH := bp.ringSig.b1 * cB.h
  let eCB := bp.ringSig.eCurveB * bp.commitmentB.commitment
  let eA1 := cA.hashToScalar (hashInput cA cB bp.commitmentA.commitment
    bp.commitmentB.commitment (aG - eCA) (bH - eCB))
  let eB1 := cB.hashToScalar (hashInput cA cB bp.commitmentA.commitment
    bp.commitmentB.commitment (aG - eCA) (bH - eCB))
  let commitmentAMinusOne := bp.commitmentA.commitment - cA.g
  let commitmentBMinusOne := bp.commitmentB.commitment - cB.g
  let aG2 := bp.ringSig.a0 * cA.h
  let bH2 := bp.ringSig.b0 * cB.h
  let ecA := eA1 * commitmentAMinusOne
  let ecB := eB1 * commitmentBMinusOne
  let eA0 := cA.hashToScalar (hashInput cA cB bp.commitmentA.commitment
    bp.commitmentB.commitment (aG2 - ecA) (bH2 - ecB))
  let eB0 := cB.hashToScalar (hashInput cA cB bp.commitmentA.commitment
    bp.commitmentB.commitment (aG2 - ecA) (bH2 - ecB))
  (eA0, eB0)

/-- The acceptance test of the per-bit loop in verify.go line 105: both
recomputed challenges must equal the stored ones. -/
def ringCheck (cA cB : Curve) (bp : bitProof cA cB) : Bool :=
  decide ((recomputedChallenges cA cB bp).1 = bp.ringSig.eCurveA) &&
    decide ((recomputedChallenges cA cB bp).2 = bp.ringSig.eCurveB)

/-- The per-bit loop of `Proof.Verify`: `n` remaining iterations, index `i`;
`p.proofs[i]` is read without a length check, so a short slice is a Go
panic (`crash`). -/
def verifyLoop (cA cB : Curve) (p : Proof cA cB) :
    ℕ → ℕ → VerifyResult
  | 0, _ => .ok
  | n + 1, i =>
    match p.proofs.get? i with
    | none => .crash
    | some bp =>
      if ringCheck cA cB bp then verifyLoop cA cB p n (i + 1)
      else .ringErr i

/-- `Proof.Verify` from verify.go: commitment-sum checks on both curves,
then the two signature checks, then the per-bit ring loop over
`min(bitSizeA, bitSizeB)` indices. -/
def Verify (cA cB : Curve) (p : Proof cA cB) : VerifyResult :=
  match verifyCommitmentsSum cA (p.proofs.map (·.commitmentA)) p.CommitmentA with
  | none => .crash
  | some false => .sumErrA
  | some true =>
    match verifyCommitmentsSum cB (p.proofs.map (·.commitmentB)) p.CommitmentB with
    | none => .crash
    | some false => .sumErrB
    | some true =>
      if cA.sigVerify p.CommitmentA p.CommitmentA p.signatureA = false then
        .sigErrA
      else if cB.sigVerify p.CommitmentB p.CommitmentB p.signatureB = false then
        .sigErrB
      else verifyLoop cA cB p (min cA.bitSize cB.bitSize) 0

/-! ### Serialization (serde.go) -/

/-- `bitProof.encode` from serde.go: the two commitment points followed by
the six ring-signature scalars. -/
def encodeBitProof (cA cB : Curve) (bp : bitProof cA cB) : List ℕ :=
  cA.pEnc bp.commitmentA.commitment ++ cB.pEnc bp.commitmentB.commitment ++
    cA.sEnc bp.ringSig.eCurveA ++ cB.sEnc bp.ringSig.eCurveB ++
    cA.sEnc bp.ringSig.a0 ++ cA.sEnc bp.ringSig.a1 ++
    cB.sEnc bp.ringSig.b0 ++ cB.sEnc bp.ringSig.b1

/-- `Proof.Serialize` from serde.go.  `byte(len(...))` truncates modulo 256. -/
def Serialize (cA cB : Curve) (p : Proof cA cB) : List ℕ :=
  cA.pEnc p.CommitmentA ++ cB.pEnc p.CommitmentB ++
    [p.proofs.length % 256] ++
    (p.proofs.map (encodeBitProof cA cB)).flatten ++
    [p.signatureA.length % 256] ++ p.signatureA ++
    [p.signatureB.length % 256] ++ p.signatureB

/-- `bitProof.decode` from serde.go: sequential `Next` reads from the
buffer; the decoded commitment structs carry no blinder (modelled as 0).
Returns the decoded bit proof and the remaining bytes. -/
def decodeBitProof (cA cB : Curve) (r : List ℕ) :
    Option (bitProof cA cB × List ℕ) := do
  let cptA ← cA.pDec (r.take cA.pointSize)
  let r1 := r.drop cA.pointSize
  let cptB ← cB.pDec (r1.take cB.pointSize)
  let r2 := r1.drop cB.pointSize
  let eCurveA ← cA.sDec (r2.take 32)
  let r3 := r2.drop 32
  let eCurveB ← cB.sDec (r3.take 32)
  let r4 := r3.drop 32
  let a0 ← cA.sDec (r4.take 32)
  let r5 := r4.drop 32
  let a1 ← cA.sDec (r5.take 32)
  let r6 := r5.drop 32
  let b0 ← cB.sDec (r6.take 32)
  let r7 := r6.drop 32
  let b1 ← cB.sDec (r7.take 32)
  some (⟨⟨0, cptA⟩, ⟨0, cptB⟩, ⟨eCurveA, eCurveB, a0, a1, b0, b1⟩⟩, r7.drop 32)

/-- The bit-proof decoding loop of `Proof.Deserialize`. -/
def decodeBitProofs (cA cB : Curve) :
    ℕ → List ℕ → Option (List (bitProof cA cB) × List ℕ)
  | 0, r => some ([], r)
  | n + 1, r => do
    let (bp, r1) ← decodeBitProof cA cB r
    let (rest, r2) ← decodeBitProofs cA cB n r1
    some (bp :: rest, r2)

/-- `Proof.Deserialize` from serde.go, with every length check in source
order: the two leading points, the `nbits` byte, the
`nbits * (ptlenA + ptlenB + 32*6)` bulk check, then each length-prefixed
signature. -/
def Deserialize (cA cB : Curve) (inp : List ℕ) : Option (Proof cA cB) :=
  if inp.length < cA.pointSize + cB.pointSize then none
  else
    match cA.pDec (inp.take cA.pointSize) with
    | none => none
    | some xA =>
      let r1 := inp.drop cA.pointSize
      match cB.pDec (r1.take cB.pointSize) with
      | none => none
      | some xB =>
        match r1.drop cB.pointSize with
        | [] => none
        | nb :: r3 =>
          if r3.length < nb * (cA.pointSize + cB.pointSize + 32 * 6) then none
          else
            match decodeBitProofs cA cB nb r3 with
            | none => none
            | some (bps, r4) =>
              match r4 with
              | [] => none
              | sA :: r5 =>
                if r5.length < sA then none
                else
                  match r5.drop sA with
                  | [] => none
                  | sB :: r7 =>
                    if r7.length < sB then none
                    else some ⟨xA, xB, bps, r5.take sA, r7.take sB⟩

/-- The fixed size of one serialized bit proof. -/
def blockSize (cA cB : Curve) : ℕ := cA.pointSize + cB.pointSize + 32 * 6

/-- The number of bytes the serialized layout requires of an input, reading
the `nbits` and signature-length bytes at their fixed offsets (0 when the
input is too short to contain them). -/
def requiredLen (cA cB : Curve) (inp : List ℕ) : ℕ :=
  let hdr := cA.pointSize + cB.pointSize
  let nb := inp.getD hdr 0
  let pos1 := hdr + 1 + nb * blockSize cA cB
  let sA := inp.getD pos1 0
  let pos2 := pos1 + 1 + sA
  let sB := inp.getD pos2 0
  pos2 + 1 + sB

/-- A bit proof with its prover-side blinders dropped, as `Deserialize`
reconstructs it (the blinder is not serialized). -/
def stripBit (cA cB : Curve) (bp : bitProof cA cB) : bitProof cA cB :=
  ⟨⟨0, bp.commitmentA.commitment⟩, ⟨0, bp.commitmentB.commitment⟩, bp.ringSig⟩

/-- A proof with all prover-side blinders dropped: the serialized content. -/
def stripBlinders (cA cB : Curve) (p : Proof cA cB) : Proof cA cB :=
  ⟨p.CommitmentA, p.CommitmentB, p.proofs.map (stripBit cA cB),
    p.signatureA, p.signatureB⟩

/-! ### A small concrete curve pair used for concrete evaluations -/

/-- A tiny concrete instance of the group interface over `ZMod 3` with a
trivial signature scheme, used to evaluate the generic definitions on
concrete inputs. -/
def toy (bs : ℕ) : Curve where
  q := 3
  q_prime := by norm_num
  bitSize := bs
  pointSize := 1
  g := 1
  h := 2
  pEnc := fun p => [p.val]
  sEnc := fun s => s.val :: List.replicate 31 0
  pDec := fun l =>
    match l with
    | [v] => some ((v : ZMod 3))
    | _ => none
  sDec := fun l => if l.length = 32 then some ((leNat l : ZMod 3)) else none
  hashToScalar := fun l => ((l.foldl (· + ·) 0 : ℕ) : ZMod 3)
  sign := fun _ _ => []
  sigVerify := fun _ _ _ => true

/-! ### The ed25519 adapter's bespoke Schnorr signature (ed25519.go) -/

/-- The order of the prime-order subgroup of edwards25519: the modulus of
`edwards25519.Scalar`. -/
def edOrder : ℕ := 2 ^ 252 + 27742317777372353535851937790883648493

instance : NeZero edOrder := ⟨by norm_num [edOrder]⟩

/-- Little-endian byte encoding on `k` bytes, as `edwards25519.Scalar.Bytes`
produces for `k = 32`. -/
def leBytes : ℕ → ℕ → List ℕ
  | 0, _ => []
  | k + 1, x => x % 256 :: leBytes k (x / 256)

/-- `CurveImpl.Sign` of the ed25519 adapter: `r` is derived by hashing the
secret scalar's canonical 32-byte encoding with SHA-512 and reducing the
64 bytes little-endian mod the group order (`SetUniformBytes`); `R = r·G`
and `A = s·G` (a point is represented by its discrete log, so `x·G` is
`x`); the challenge hashes `encode(R) ∥ encode(A) ∥ encode(P)`;
`S = r + c·s`; the signature is `encode(R) ∥ encode(S)`.
`SetUniformBytes` fails (`none`) when the hash is not 64 bytes long. -/
def edSign (H512 : List ℕ → List ℕ) (penc : ZMod edOrder → List ℕ)
    (s P : ZMod edOrder) : Option (List ℕ) :=
  let seed := leBytes 32 s.val
  let h := H512 seed
  if h.length ≠ 64 then none
  else
    let r : ZMod edOrder := ((leNat h : ℕ) : ZMod edOrder)
    let R := r
    let A := s
    let hram := H512 (penc R ++ penc A ++ penc P)
    if hram.length ≠ 64 then none
    else
      let c : ZMod edOrder := ((leNat hram : ℕ) : ZMod edOrder)
      let S := r + c * s
      some (penc R ++ leBytes 32 S.val)

/-- `CurveImpl.Verify` of the ed25519 adapter: split the signature into the
two 32-byte halves (Go's `copy` into zeroed arrays truncates or zero-pads;
slicing `sig[:32]` panics - `none` - when the signature is shorter than 32
bytes), rehash the challenge from `R ∥ pubkey ∥ msgPoint`, decode `R` and
the canonical scalar `S` (failures return `false`), and accept iff
`(-c)·pubkey + S·G` equals `R`. -/
def edVerify (H512 : List ℕ → List ℕ) (penc : ZMod edOrder → List ℕ)
    (pdec : List ℕ → Option (ZMod edOrder))
    (pubkey msgPoint : ZMod edOrder) (sig : List ℕ) : Option Bool :=
  if sig.length < 32 then none
  else
    let RBytes := sig.take 32
    let sBytes := (sig.drop 32 ++ List.replicate 32 0).take 32
    let hram := H512 (RBytes ++ penc pubkey ++ penc msgPoint)
    if hram.length ≠ 64 then some false
    else
      let c : ZMod edOrder := ((leNat hram : ℕ) : ZMod edOrder)
      match pdec RBytes with
      | none => some false
      | some R =>
        if edOrder ≤ leNat sBytes then some false
        else
          let S : ZMod edOrder := ((leNat sBytes : ℕ) : ZMod edOrder)
          some (decide ((-c) * pubkey + S = R))

/-! ### SHA3-512 (golang.org/x/crypto/sha3) and the two HashToScalar
adapters -/

/-- All 64-bit words set: the numeric value of a bitwise complement. -/
def mask64 : ℕ := 2 ^ 64 - 1

/-- 64-bit left rotation on `ℕ` values below `2^64`, written with plain
arithmetic: the shifted-out high part wraps to the low bits. -/
def rotl64 (x n : ℕ) : ℕ :=
  (x * 2 ^ n) % 2 ^ 64 + x / 2 ^ (64 - n)

/-- The state of the degree-8 LFSR `x^8 + x^6 + x^5 + x^4 + 1` that
generates the Keccak round-constant bit sequence, after `t` steps. -/
def rcSeq : ℕ → ℕ
  | 0 => 1
  | t + 1 =>
    let r := rcSeq t
    ((r <<< 1) ^^^ ((r >>> 7) * 0x71)) % 256

/-- The 24 Keccak-f[1600] round constants, generated from the LFSR: bit
`2^j - 1` of constant `i` is the LFSR output at step `7i + j` (this
reproduces the table `0x0000000000000001, 0x0000000000008082, …` of the
standard). -/
def keccakRC : List ℕ :=
  (List.range 24).map (fun i =>
    (List.range 7).foldl
      (fun acc j => acc ||| ((rcSeq (7 * i + j) &&& 1) <<< (2 ^ j - 1))) 0)

/-- The rho rotation offsets, indexed by lane `x + 5y`, generated by
walking the pi trajectory from `(1,0)` and rotating lane `t` of the walk by
the triangular number `(t+1)(t+2)/2 mod 64`. -/
def rhoOffsets : List ℕ :=
  ((List.range 24).foldl
    (fun (st : (ℕ × ℕ) × List ℕ) t =>
      ((st.1.2, (2 * st.1.1 + 3 * st.1.2) % 5),
        st.2.set (st.1.1 + 5 * st.1.2) ((t + 1) * (t + 2) / 2 % 64)))
    ((1, 0), List.replicate 25 0)).2

/-- The inverse of the pi lane permutation `(x,y) ↦ (y, 2x+3y mod 5)` on
flat indices: `piInv[t]` is the source lane moved to target lane `t`. -/
def piInv : List ℕ :=
  [0, 6, 12, 18, 24, 3, 9, 10, 16, 22, 1, 7, 13, 19, 20,
   4, 5, 11, 17, 23, 2, 8, 14, 15, 21]

/-- One Keccak-f[1600] round (theta, rho, pi, chi, iota) on a 25-lane state
of 64-bit words; `mask64 - w` is the bitwise complement of `w`. -/
def keccakRound (A : List ℕ) (rc : ℕ) : List ℕ :=
  let parity := fun x =>
    (List.range 5).foldl (fun acc y => acc ^^^ A.getD (x + 5 * y) 0) 0
  let dmix := fun x =>
    parity ((x + 4) % 5) ^^^ rotl64 (parity ((x + 1) % 5)) 1
  let afterTheta := (List.range 25).map (fun i => A.getD i 0 ^^^ dmix (i % 5))
  let afterRhoPi := (List.range 25).map (fun t =>
    let src := piInv.getD t 0
    rotl64 (afterTheta.getD src 0) (rhoOffsets.getD src 0))
  let lane := fun i => afterRhoPi.getD i 0
  let afterChi := (List.range 25).map (fun i =>
    lane i ^^^ ((mask64 - lane ((i % 5 + 1) % 5 + 5 * (i / 5))) &&&
      lane ((i % 5 + 2) % 5 + 5 * (i / 5))))
  afterChi.set 0 (afterChi.getD 0 0 ^^^ rc)

/-- The full Keccak-f[1600] permutation. -/
def keccakP (A : List ℕ) : List ℕ := keccakRC.foldl keccakRound A

/-- Absorb one 72-byte block (the SHA3-512 rate) into the state. -/
def absorbBlock (st block : List ℕ) : List ℕ :=
  keccakP ((List.range 25).map (fun i =>
    if i < 9 then st.getD i 0 ^^^ leNat ((block.drop (8 * i)).take 8)
    else st.getD i 0))

/-- Absorb `k` consecutive 72-byte blocks. -/
def absorbChunks : ℕ → List ℕ → List ℕ → List ℕ
  | 0, st, _ => st
  | k + 1, st, data =>
    absorbChunks k (absorbBlock st (data.take 72)) (data.drop 72)

/-- SHA3-512 of a byte string: pad with `0x06 … 0x80`, absorb at rate 72,
squeeze the first 64 bytes (validated against the standard test vectors for
the empty string, "abc" and a two-block input). -/
def sha3_512 (msg : List ℕ) : List ℕ :=
  let q := 72 - msg.length % 72
  let pad := (List.range q).map (fun i =>
    (if i = 0 then 0x06 else 0) + (if i = q - 1 then 0x80 else 0))
  let padded := msg ++ pad
  let st := absorbChunks (padded.length / 72) (List.replicate 25 0) padded
  ((List.range 8).map (fun i => leBytes 8 (st.getD i 0))).flatten

/-- The order of the secp256k1 group (`c.order` of the secp adapter). -/
def secpOrder : ℕ :=
  0xfffffffffffffffffffffffffffffffebaaedce6af48a03bbfd25e8cd0364141

/-- The secp256k1 adapter's `HashToScalar`: SHA3-512, big-endian value
reduced mod the order, then `big.Int.Bytes` (minimal big-endian, so leading
zero bytes disappear) copied to the FRONT of a zeroed 32-byte array and
re-read big-endian by `ModNScalar.SetBytes`; the adapter panics (`none`)
when that re-read value overflows the order. -/
def secpHashToScalar (inp : List ℕ) : Option ℕ :=
  let h := sha3_512 inp
  let n := beNat h % secpOrder
  let bytes := ((leBytes 32 n).reverse).dropWhile (· == 0)
  let reduced := bytes ++ List.replicate (32 - bytes.length) 0
  let v := beNat reduced
  if secpOrder ≤ v then none else some v

/-- The ed25519 adapter's `HashToScalar`: SHA3-512 handed to
`edwards25519.Scalar.SetUniformBytes`, which reduces the 64 bytes as a
LITTLE-endian integer mod the group order. -/
def edHashToScalarNat (inp : List ℕ) : ℕ := leNat (sha3_512 inp) % edOrder

/-- The specification's contract, stated from its words: SHA3-512 digest
interpreted as a 64-byte BIG-endian integer and reduced mod the group
order. -/
def hashToScalarSpecBE (order : ℕ) (inp : List ℕ) : ℕ :=
  beNat (sha3_512 inp) % order

/-! ### Theorems: byte-level helpers -/

theorem byte_and_mask_eq_zero :
    ∀ b < 256, ∀ k < 8, 0 < k →
      ((b &&& ((255 <<< k) % 256) = 0) ↔ ∀ j < 8, k ≤ j → (b >>> j) &&& 1 = 0) := by
  decide

theorem byte_eq_zero_iff :
    ∀ b < 256, (b = 0 ↔ ∀ j < 8, (b >>> j) &&& 1 = 0) := by
  decide

theorem any_ne_zero_false (l : List ℕ) :
    (l.any (· ≠ 0) = false) ↔ ∀ a ∈ l, a = 0 := by
  simp [List.any_eq_false]

theorem forall_mem_drop_iff (x : List ℕ) (m : ℕ) :
    (∀ a ∈ x.drop m, a = 0) ↔ ∀ i, m ≤ i → i < x.length → x.getD i 0 = 0 := by
  constructor
  · intro h i him hilt
    have hidx : i - m < (x.drop m).length := by
      simp only [List.length_drop]; omega
    have := h ((x.drop m).get ⟨i - m, hidx⟩) (List.get_mem _ _ _)
    rw [List.getD_eq_getElem x 0 hilt]
    simpa [List.getElem_drop, Nat.add_sub_cancel' him] using this
  · intro h a ha
    obtain ⟨i, hi, rfl⟩ := List.mem_iff_getElem.mp ha
    have hlen : m + i < x.length := by
      have := hi; simp only [List.length_drop] at this; omega
    have := h (m + i) (by omega) hlen
    rw [List.getD_eq_getElem x 0 hlen] at this
    simpa [List.getElem_drop] using this

theorem checkWitnessSize_eq_some_true (x : List ℕ) (hlen : x.length = 32)
    (bits : ℕ) (h1 : 0 < bits) (h2 : bits ≤ 255) :
    (checkWitnessSize x bits = some true ↔
      (x.getD (bits / 8) 0 &&& ((255 <<< (8 - (256 - bits) % 8)) % 256) = 0 ∧
        ∀ i, bits / 8 + 1 ≤ i → i < 32 → x.getD i 0 = 0)) := by
  have hdiv : bits / 8 < 32 := by omega
  have hget : x.get? (bits / 8) = some (x.getD (bits / 8) 0) := by
    rw [List.get?_eq_getElem?, List.getElem?_eq_getElem (by omega),
      List.getD_eq_getElem x 0 (by omega)]
  simp only [checkWitnessSize, hget]
  by_cases hm : x.getD (bits / 8) 0 &&& ((255 <<< (8 - (256 - bits) % 8)) % 256) = 0
  · rw [if_neg (fun hcon => hcon hm)]
    by_cases hc : (256 - bits) / 8 = 0
    · have h31 : bits / 8 = 31 := by omega
      rw [if_pos hc]
      constructor
      · exact fun _ => ⟨hm, fun i hi1 hi2 => absurd hi2 (by omega)⟩
      · intro _
        rfl
    · rw [if_neg hc]
      constructor
      · intro hsome
        refine ⟨hm, fun i hi1 hi2 => ?_⟩
        by_cases ha : (x.drop (bits / 8 + 1)).any (· ≠ 0) = true
        · rw [if_pos ha] at hsome
          exact absurd hsome (by simp)
        · have hfalse : (x.drop (bits / 8 + 1)).any (· ≠ 0) = false := by
            simpa using ha
          exact (forall_mem_drop_iff x _).mp ((any_ne_zero_false _).mp hfalse) i hi1
            (by omega)
      · rintro ⟨_, htail⟩
        have hdz : ∀ a ∈ x.drop (bits / 8 + 1), a = 0 := by
          rw [forall_mem_drop_iff]
          intro i hi1 hi2
          exact htail i hi1 (by omega)
        rw [if_neg (by simpa using hdz)]
  · rw [if_pos hm]
    constructor
    · intro h
      exact absurd h (by simp)
    · intro h
      exact absurd h.1 hm

theorem checkWitnessSize_spec (x : List ℕ) (hlen : x.length = 32)
    (hb : ∀ b ∈ x, b < 256) (bits : ℕ)
    (h1 : 0 < bits) (h2 : bits ≤ 256) (h8 : bits % 8 ≠ 0) :
    (checkWitnessSize x bits = some true ↔
      ∀ n, bits ≤ n → n < 256 → getBit x n = 0) := by
  have h255 : bits ≤ 255 := by omega
  have hdiv : bits / 8 < 32 := by omega
  have hbyte : ∀ i, i < 32 → x.getD i 0 < 256 := by
    intro i hi
    rw [List.getD_eq_getElem x 0 (by omega)]
    exact hb _ (List.getElem_mem _)
  have harith : 8 - (256 - bits) % 8 = bits % 8 := by omega
  rw [checkWitnessSize_eq_some_true x hlen bits h1 h255, harith]
  constructor
  · rintro ⟨hmask, htail⟩ n hn1 hn2
    simp only [getBit]
    by_cases hcase : n / 8 = bits / 8
    · rw [hcase]
      exact (byte_and_mask_eq_zero _ (hbyte _ hdiv) (bits % 8) (by omega)
        (by omega)).mp hmask (n % 8) (by omega) (by omega)
    · have hz : x.getD (n / 8) 0 = 0 := htail (n / 8) (by omega) (by omega)
      rw [hz]
      simp
  · intro h
    refine ⟨?_, ?_⟩
    · refine (byte_and_mask_eq_zero _ (hbyte _ hdiv) (bits % 8) (by omega)
        (by omega)).mpr ?_
      intro j hj8 hjk
      have := h (8 * (bits / 8) + j) (by omega) (by omega)
      simp only [getBit] at this
      rwa [show (8 * (bits / 8) + j) / 8 = bits / 8 by omega,
        show (8 * (bits / 8) + j) % 8 = j by omega] at this
    · intro i hi1 hi2
      refine (byte_eq_zero_iff _ (hbyte _ hi2)).mpr ?_
      intro j hj
      have := h (8 * i + j) (by omega) (by omega)
      simp only [getBit] at this
      rwa [show (8 * i + j) / 8 = i by omega,
        show (8 * i + j) % 8 = j by omega] at this

/-! ### Claim C4 -/

/-- C4 (counterexample): the claimed equivalence `checkWitnessSize x bits
succeeds iff every bit of x at index n ≥ bits is zero` fails at
`bits = 248` and `x = 0^31 ∥ 0x01`: the mask `0xff << (8 - 8 % 8)`
truncates to zero, the tail loop is empty, so the check succeeds although
bit 248 of `x` is set. -/
theorem c4_counterexample :
    ¬ (checkWitnessSize (List.replicate 31 0 ++ [1]) 248 = some true ↔
      ∀ n < 256, 248 ≤ n → getBit (List.replicate 31 0 ++ [1]) n = 0) := by
  decide

/-- C4 (amended): for every 32-byte `x` and every bit count `bits` with
`0 < bits ≤ 256` that is **not divisible by 8**, `checkWitnessSize x bits`
succeeds iff every bit of `x` at index `n ≥ bits` is zero.  (When
`8 ∣ bits` the byte at index `bits/8` escapes both the mask and the tail
loop, and at `bits = 256` the function panics on `x[32]`.) -/
theorem c4_witness_size_gate (x : List ℕ) (hlen : x.length = 32)
    (hb : ∀ b ∈ x, b < 256) (bits : ℕ)
    (h1 : 0 < bits) (h2 : bits ≤ 256) (h8 : bits % 8 ≠ 0) :
    (checkWitnessSize x bits = some true ↔
      ∀ n < 256, bits ≤ n → getBit x n = 0) := by
  rw [checkWitnessSize_spec x hlen hb bits h1 h2 h8]
  constructor
  · exact fun h n hn2 hn1 => h n hn1 hn2
  · exact fun h n hn1 hn2 => h n hn2 hn1

/-- C4 (witness): the amended gate theorem applied at the all-zero witness
and the production bit count 252. -/
theorem c4_witness_size_gate_witness :
    (List.replicate 32 0 : List ℕ).length = 32 ∧
      (checkWitnessSize (List.replicate 32 0) 252 = some true ↔
        ∀ n < 256, 252 ≤ n → getBit (List.replicate 32 0) n = 0) :=
  ⟨by decide, c4_witness_size_gate (List.replicate 32 0) (by decide) (by decide)
    252 (by decide) (by decide) (by decide)⟩

/-! ### Claim C9 -/

theorem masked_byte_mask_zero :
    ∀ r < 256, ∀ t < 9, 1 ≤ t →
      (r &&& (255 >>> t)) &&& ((255 <<< (8 - t % 8)) % 256) = 0 := by
  decide

/-- C9 (counterexample): the claimed invariant `checkWitnessSize
(generateRandomBits bits rng) bits succeeds for every bits ≤ 256` fails at
`bits = 200` with an all-`0xff` CSPRNG read: only the top byte is masked,
so bytes 26..30 keep nonzero values above bit 200. -/
theorem c9_counterexample :
    ¬ (checkWitnessSize (generateRandomBits 200 (List.replicate 32 255)) 200 =
      some true) := by
  decide

/-- C9 (amended): for every bit count with `248 ≤ bits ≤ 255` (which covers
every supported curve pair, in particular the production value 252) and
every 32-byte CSPRNG read, the masked output of `generateRandomBits`
satisfies `checkWitnessSize`. -/
theorem c9_random_bits_invariant (bits : ℕ) (h1 : 248 ≤ bits)
    (h2 : bits ≤ 255) (rng : List ℕ) (hlen : rng.length = 32)
    (hb : ∀ b ∈ rng, b < 256) :
    checkWitnessSize (generateRandomBits bits rng) bits = some true := by
  have hout : (generateRandomBits bits rng).length = 32 := by
    simp [generateRandomBits, hlen]
  have hdiv : bits / 8 = 31 := by omega
  rw [checkWitnessSize_eq_some_true _ hout bits (by omega) h2]
  have hr : rng.getD 31 0 < 256 := by
    rw [List.getD_eq_getElem rng 0 (by omega)]
    exact hb _ (List.getElem_mem _)
  have hgd : (generateRandomBits bits rng).getD 31 0 =
      rng.getD 31 0 &&& (255 >>> (256 - bits)) := by
    unfold generateRandomBits
    rw [List.getD_eq_getElem _ 0 (by simp [hlen]), List.getElem_set_self]
  refine ⟨?_, ?_⟩
  · rw [hdiv, hgd]
    exact masked_byte_mask_zero (rng.getD 31 0) hr (256 - bits) (by omega)
      (by omega)
  · intro i hi1 hi2
    rw [hdiv] at hi1
    omega

/-- C9 (witness): the amended invariant applied at the production bit count
252 and an all-`0xff` CSPRNG read. -/
theorem c9_random_bits_invariant_witness :
    checkWitnessSize (generateRandomBits 252 (List.replicate 32 255)) 252 =
      some true :=
  c9_random_bits_invariant 252 (by decide) (by decide) (List.replicate 32 255)
    (by decide) (by decide)

/-! ### The commitment-sum check -/

theorem sumFold_spec (c : Curve) (l : List (Commitment c)) :
    ∀ s p : ZMod c.q,
      (l.foldl (fun (acc : ZMod c.q × ZMod c.q) cm =>
          (acc.1 + cm.commitment * acc.2, acc.2 * 2)) (s, p)).1 =
        s + ∑ i ∈ Finset.range l.length,
          (l.map (·.commitment)).getD i 0 * (p * 2 ^ i) := by
  induction l with
  | nil => intro s p; simp
  | cons a t ih =>
    intro s p
    rw [List.foldl_cons, ih (s + a.commitment * p) (p * 2)]
    rw [List.length_cons, Finset.sum_range_succ']
    simp only [List.map_cons, List.getD_cons_succ, List.getD_cons_zero]
    rw [Finset.sum_congr rfl (fun i (_ : i ∈ Finset.range t.length) =>
      show (t.map (·.commitment)).getD i 0 * (p * 2 * 2 ^ i) =
        (t.map (·.commitment)).getD i 0 * (p * 2 ^ (i + 1)) by ring)]
    ring

theorem verifyCommitmentsSum_spec (c : Curve) (l : List (Commitment c))
    (hne : l ≠ []) (pt : ZMod c.q) :
    verifyCommitmentsSum c l pt =
      some (decide (specWeightedSum c (l.map (·.commitment)) = pt)) := by
  match l, hne with
  | c0 :: rest, _ =>
    show some _ = some _
    congr 1
    have hfold := sumFold_spec c rest c0.commitment 2
    have hsum : (rest.foldl (fun (acc : ZMod c.q × ZMod c.q) cm =>
        (acc.1 + cm.commitment * acc.2, acc.2 * 2)) (c0.commitment, 2)).1 =
        specWeightedSum c ((c0 :: rest).map (·.commitment)) := by
      rw [hfold, specWeightedSum]
      simp only [List.map_cons, List.length_map, List.length_cons]
      rw [Finset.sum_range_succ']
      simp only [List.getD_cons_succ, List.getD_cons_zero, pow_zero, mul_one,
        one_mul]
      rw [Finset.sum_congr rfl (fun i (_ : i ∈ Finset.range rest.length) =>
        show (rest.map (·.commitment)).getD i 0 * (2 * 2 ^ i) =
          (2 : ZMod c.q) ^ (i + 1) * (rest.map (·.commitment)).getD i 0 by
            rw [pow_succ]; ring)]
      ring
    rw [hsum]

/-! ### Claim C3 -/

/-- C3: `Proof.Verify` reconstructs, from the bit proofs alone, the weighted
commitment sum `C_0 + ∑_{i≥1} 2^i·C_i` on each group, and returns the
curve-A (resp. curve-B) commitment-sum error as soon as that sum differs
from the stored commitment — before any signature or ring check is even
looked at (neither hypothesis mentions them). -/
theorem c3_commitment_sum_gate (cA cB : Curve) (p : Proof cA cB)
    (hne : p.proofs ≠ []) :
    (specWeightedSum cA (p.proofs.map (fun bp => bp.commitmentA.commitment)) ≠
        p.CommitmentA →
      Verify cA cB p = .sumErrA) ∧
    (specWeightedSum cA (p.proofs.map (fun bp => bp.commitmentA.commitment)) =
        p.CommitmentA →
      specWeightedSum cB (p.proofs.map (fun bp => bp.commitmentB.commitment)) ≠
        p.CommitmentB →
      Verify cA cB p = .sumErrB) := by
  have hneA : p.proofs.map (·.commitmentA) ≠ [] := by
    simpa using hne
  have hneB : p.proofs.map (·.commitmentB) ≠ [] := by
    simpa using hne
  have hA := verifyCommitmentsSum_spec cA (p.proofs.map (·.commitmentA)) hneA
    p.CommitmentA
  have hB := verifyCommitmentsSum_spec cB (p.proofs.map (·.commitmentB)) hneB
    p.CommitmentB
  rw [List.map_map] at hA hB
  simp only [Function.comp_def] at hA hB
  constructor
  · intro hbad
    unfold Verify
    rw [hA, decide_eq_false hbad]
  · intro hgood hbad
    unfold Verify
    rw [hA, decide_eq_true hgood, hB, decide_eq_false hbad]

/-- C3 (witness): on the tiny concrete curve pair, a proof whose stored
curve-A commitment has been replaced by `(x+1)·G_A = 1` (for the zero
witness) while its single bit commitment sums to 2 is rejected with the
curve-A commitment-sum error. -/
theorem c3_commitment_sum_gate_witness :
    ((⟨1, 1, [⟨⟨0, 2⟩, ⟨0, 2⟩, ⟨0, 0, 0, 0, 0, 0⟩⟩], [], []⟩ :
        Proof (toy 5) (toy 4)).proofs ≠ []) ∧
      Verify (toy 5) (toy 4)
        ⟨1, 1, [⟨⟨0, 2⟩, ⟨0, 2⟩, ⟨0, 0, 0, 0, 0, 0⟩⟩], [], []⟩ = .sumErrA :=
  ⟨by decide, (c3_commitment_sum_gate (toy 5) (toy 4) _ (by decide)).1
    (by decide)⟩

/-! ### Claim C10 -/

/-- C10 (counterexample): the claim `Verify panics for any proof holding
fewer bit proofs than min(n_A, n_B)` is false as stated: on the tiny curve
pair (`min` of the bit sizes is 4) a proof holding one bit proof whose
weighted sum does not match fails the commitment-sum check first, so
`Verify` returns the curve-A sum error rather than panicking. -/
theorem c10_counterexample :
    ((⟨1, 1, [⟨⟨0, 2⟩, ⟨0, 2⟩, ⟨0, 0, 0, 0, 0, 0⟩⟩], [], []⟩ :
        Proof (toy 5) (toy 4)).proofs).length <
        min (toy 5).bitSize (toy 4).bitSize ∧
      ¬ (Verify (toy 5) (toy 4)
        ⟨1, 1, [⟨⟨0, 2⟩, ⟨0, 2⟩, ⟨0, 0, 0, 0, 0, 0⟩⟩], [], []⟩ = .crash) := by
  decide

/-- C10 (amended): `Proof.Verify` performs no length check on the bit-proof
slice; a proof holding **zero** bit proofs (e.g. one deserialized from a
buffer whose nbits byte is 0) makes the commitment-sum check read element 0
of an empty slice, a Go panic, modelled as `crash`.  (For `0 < count <
min(n_A,n_B)` the loop would likewise panic at index `count`, but only
after the sum, signature and first `count` ring checks all pass; otherwise
those checks return their error first, as the counterexample shows.) -/
theorem c10_verify_crash_on_empty (cA cB : Curve) (p : Proof cA cB)
    (hempty : p.proofs = []) :
    Verify cA cB p = .crash := by
  unfold Verify
  rw [hempty]
  rfl

/-- C10 (witness): a buffer with nbits byte 0 deserializes successfully on
the tiny curve pair into a proof with zero bit proofs, and `Verify` crashes
on it. -/
theorem c10_verify_crash_on_empty_witness :
    (Deserialize (toy 5) (toy 4) [1, 1, 0, 0, 0] =
      some ⟨1, 1, [], [], []⟩) ∧
      Verify (toy 5) (toy 4) ⟨1, 1, [], [], []⟩ = .crash :=
  ⟨by decide, c10_verify_crash_on_empty (toy 5) (toy 4) _ rfl⟩

/-! ### The little-endian witness value as a sum of its bits -/

theorem byte_bits_sum :
    ∀ b < 256, b = ∑ j ∈ Finset.range 8, 2 ^ j * ((b >>> j) &&& 1) := by
  decide

theorem getBit_cons_lt (a : ℕ) (t : List ℕ) (i : ℕ) (hi : i < 8) :
    getBit (a :: t) i = (a >>> i) &&& 1 := by
  simp only [getBit]
  rw [Nat.div_eq_of_lt (by omega), Nat.mod_eq_of_lt (by omega)]
  rfl

theorem getBit_cons_add (a : ℕ) (t : List ℕ) (i : ℕ) :
    getBit (a :: t) (8 + i) = getBit t i := by
  simp only [getBit]
  rw [show (8 + i) / 8 = i / 8 + 1 by omega, show (8 + i) % 8 = i % 8 by omega]
  rfl

theorem leNat_eq_bit_sum (x : List ℕ) (hb : ∀ b ∈ x, b < 256) :
    leNat x = ∑ i ∈ Finset.range (8 * x.length), 2 ^ i * getBit x i := by
  induction x with
  | nil => simp [leNat]
  | cons a t ih =>
    have ha : a < 256 := hb a (List.mem_cons_self a t)
    have ht : ∀ b ∈ t, b < 256 := fun b hbt => hb b (List.mem_cons_of_mem a hbt)
    have hstep : leNat (a :: t) = a + 256 * leNat t := rfl
    rw [hstep, ih ht, List.length_cons,
      show 8 * (t.length + 1) = 8 + 8 * t.length by ring,
      Finset.sum_range_add]
    congr 1
    · rw [Finset.sum_congr rfl (fun j (hj : j ∈ Finset.range 8) =>
        show 2 ^ j * getBit (a :: t) j = 2 ^ j * ((a >>> j) &&& 1) by
          rw [getBit_cons_lt a t j (Finset.mem_range.mp hj)])]
      exact byte_bits_sum a ha
    · rw [Finset.mul_sum]
      exact Finset.sum_congr rfl (fun i _ => by
        rw [getBit_cons_add, pow_add]
        ring)

/-- If all bits of `x` from index `bits` on are zero, the little-endian
value of `x` is the weighted sum of its low `bits` bits. -/
theorem leNat_eq_low_bits (x : List ℕ) (hlen : x.length = 32)
    (hb : ∀ b ∈ x, b < 256) (bits : ℕ) (hbits : bits ≤ 256)
    (hhigh : ∀ n, bits ≤ n → n < 256 → getBit x n = 0) :
    leNat x = ∑ i ∈ Finset.range bits, 2 ^ i * getBit x i := by
  rw [leNat_eq_bit_sum x hb, hlen,
    show 8 * 32 = bits + (256 - bits) by omega, Finset.sum_range_add]
  rw [Finset.sum_congr rfl (fun i (hi : i ∈ Finset.range (256 - bits)) =>
    show 2 ^ (bits + i) * getBit x (bits + i) = 0 by
      rw [hhigh (bits + i) (by omega)
        (by have := Finset.mem_range.mp hi; omega)]
      ring)]
  simp

/-! ### Commitment generation: closed form -/

theorem two_ne_zero_zmod (c : Curve) (hq2 : c.q ≠ 2) : (2 : ZMod c.q) ≠ 0 := by
  intro hcon
  have h2 : ((2 : ℕ) : ZMod c.q) = 0 := by
    push_cast
    exact hcon
  rw [ZMod.natCast_zmod_eq_zero_iff_dvd 2 c.q] at h2
  exact hq2 ((Nat.prime_dvd_prime_iff_eq c.q_prime Nat.prime_two).mp h2)

theorem two_pow_ne_zero_zmod (c : Curve) (hq2 : c.q ≠ 2) (m : ℕ) :
    (2 : ZMod c.q) ^ m ≠ 0 := by
  haveI := Fact.mk c.q_prime
  exact pow_ne_zero m (two_ne_zero_zmod c hq2)

theorem genComAux_spec (c : Curve) (hq2 : c.q ≠ 2) (x : List ℕ) (bits : ℕ)
    (rand : ℕ → ZMod c.q)
    (hr : ∀ i, i < bits - 1 → rand i ≠ 0)
    (hlast : blinderAt c rand bits (bits - 1) ≠ 0)
    (hcom : ∀ i, i < bits → commitAt c x rand bits i ≠ 0) :
    ∀ n i, i + n = bits →
      genComAux c x bits rand n i ((2 : ZMod c.q) ^ i)
        (∑ j ∈ Finset.range i, rand j * 2 ^ j) =
      some ((List.range n).map (fun m =>
        ⟨blinderAt c rand bits (i + m), commitAt c x rand bits (i + m)⟩)) := by
  haveI := Fact.mk c.q_prime
  intro n
  induction n with
  | zero =>
    intro i hi
    simp [genComAux]
  | succ n ih =>
    intro i hi
    by_cases hidx : i = bits - 1
    · have hn0 : n = 0 := by omega
      subst hn0
      subst hidx
      simp only [genComAux, if_pos rfl]
      set S := ∑ j ∈ Finset.range (bits - 1), rand j * 2 ^ j with hS
      set P := (2 : ZMod c.q) ^ (bits - 1) with hP
      have hblEq : (-S) * P⁻¹ = blinderAt c rand bits (bits - 1) := by
        rw [blinderAt, if_pos rfl]
      have hz : S + -S * P⁻¹ * P = 0 := by
        rw [mul_assoc, inv_mul_cancel₀ (hP ▸ two_pow_ne_zero_zmod c hq2 (bits - 1))]
        ring
      rw [if_neg (not_not_intro hz)]
      rw [if_neg (show ¬ (-S * P⁻¹ = 0) from fun hcon =>
        hlast (hblEq ▸ hcon))]
      have hcptEq : (getBit x (bits - 1) : ZMod c.q) * c.g + -S * P⁻¹ * c.h =
          commitAt c x rand bits (bits - 1) := by
        rw [commitAt, ← hblEq]
      rw [if_neg (show ¬ ((getBit x (bits - 1) : ZMod c.q) * c.g +
          -S * P⁻¹ * c.h = 0) from fun hcon =>
        hcom (bits - 1) (by omega) (hcptEq ▸ hcon))]
      rw [if_neg (show ¬ (getBit x (bits - 1) = 0 ∧
          (getBit x (bits - 1) : ZMod c.q) * c.g + -S * P⁻¹ * c.h ≠
            -S * P⁻¹ * c.h) by
        rintro ⟨hgb, hne⟩
        apply hne
        rw [hgb]
        push_cast
        ring)]
      rw [hcptEq, hblEq]
      rw [show List.range 1 = [0] from rfl]
      simp
    · have hlt : i < bits - 1 := by omega
      have hblEq : rand i = blinderAt c rand bits i := by
        rw [blinderAt, if_neg hidx]
      simp only [genComAux, if_neg hidx]
      have hpow1 : ¬ ((2 : ZMod c.q) ^ i * 2 = 0) := by
        rw [← pow_succ]
        exact two_pow_ne_zero_zmod c hq2 (i + 1)
      rw [if_neg hpow1]
      rw [if_neg (hr i hlt)]
      have hcptEq : (getBit x i : ZMod c.q) * c.g + rand i * c.h =
          commitAt c x rand bits i := by
        rw [commitAt, ← hblEq]
      rw [if_neg (show ¬ ((getBit x i : ZMod c.q) * c.g + rand i * c.h = 0)
        from fun hcon => hcom i (by omega) (hcptEq ▸ hcon))]
      rw [if_neg (show ¬ (getBit x i = 0 ∧
          (getBit x i : ZMod c.q) * c.g + rand i * c.h ≠ rand i * c.h) by
        rintro ⟨hgb, hne⟩
        apply hne
        rw [hgb]
        push_cast
        ring)]
      rw [show (2 : ZMod c.q) ^ i * 2 = 2 ^ (i + 1) from (pow_succ 2 i).symm,
        show (∑ j ∈ Finset.range i, rand j * 2 ^ j) + rand i * 2 ^ i =
          ∑ j ∈ Finset.range (i + 1), rand j * 2 ^ j from
          (Finset.sum_range_succ _ i).symm,
        ih (i + 1) (by omega)]
      simp only [List.range_succ_eq_map, List.map_cons, List.map_map]
      rw [hcptEq, hblEq]
      congr 2
      apply List.map_congr_left
      intro m _
      simp only [Function.comp_apply]
      rw [show i + Nat.succ m = i + 1 + m by omega]

theorem generateCommitments_spec (c : Curve) (hq2 : c.q ≠ 2) (x : List ℕ)
    (bits : ℕ) (rand : ℕ → ZMod c.q)
    (hr : ∀ i, i < bits - 1 → rand i ≠ 0)
    (hlast : blinderAt c rand bits (bits - 1) ≠ 0)
    (hcom : ∀ i, i < bits → commitAt c x rand bits i ≠ 0) :
    generateCommitments c x bits rand =
      some ((List.range bits).map (fun m =>
        ⟨blinderAt c rand bits m, commitAt c x rand bits m⟩)) := by
  have := genComAux_spec c hq2 x bits rand hr hlast hcom bits 0 (by omega)
  rw [pow_zero, Finset.sum_range_zero] at this
  rw [generateCommitments, this]
  congr 1
  apply List.map_congr_left
  intro m _
  rw [Nat.zero_add]

theorem map_range_getD {α : Type} (f : ℕ → α) (n i : ℕ) (h : i < n) (d : α) :
    ((List.range n).map f).getD i d = f i := by
  rw [List.getD_eq_getElem _ d (by simpa using h)]
  simp

theorem blinder_sum_zero (c : Curve) (hq2 : c.q ≠ 2) (bits : ℕ)
    (hbits : 0 < bits) (rand : ℕ → ZMod c.q) :
    ∑ i ∈ Finset.range bits, (2 : ZMod c.q) ^ i * blinderAt c rand bits i =
      0 := by
  haveI := Fact.mk c.q_prime
  obtain ⟨b, rfl⟩ : ∃ b, bits = b + 1 := ⟨bits - 1, by omega⟩
  rw [Finset.sum_range_succ]
  have hlast : blinderAt c rand (b + 1) b =
      (-(∑ j ∈ Finset.range b, rand j * 2 ^ j)) *
        ((2 : ZMod c.q) ^ b)⁻¹ := by
    rw [blinderAt, if_pos (by omega)]
    simp
  rw [hlast,
    Finset.sum_congr rfl (fun i (hi : i ∈ Finset.range b) =>
      show (2 : ZMod c.q) ^ i * blinderAt c rand (b + 1) i =
        rand i * 2 ^ i by
          rw [blinderAt, if_neg (by have := Finset.mem_range.mp hi; omega)]
          ring)]
  have h2b := two_pow_ne_zero_zmod c hq2 b
  field_simp
  ring

theorem generated_commitments_sum (c : Curve) (hq2 : c.q ≠ 2) (x : List ℕ)
    (bits : ℕ) (hbits : 0 < bits) (rand : ℕ → ZMod c.q) :
    specWeightedSum c (((List.range bits).map (fun m =>
        (⟨blinderAt c rand bits m, commitAt c x rand bits m⟩ :
          Commitment c))).map (·.commitment)) =
      (∑ i ∈ Finset.range bits, (2 : ZMod c.q) ^ i * (getBit x i : ZMod c.q))
        * c.g := by
  rw [List.map_map, specWeightedSum]
  simp only [List.length_map, List.length_range]
  rw [Finset.sum_congr rfl (fun i (hi : i ∈ Finset.range bits) =>
    show (2 : ZMod c.q) ^ i * ((List.range bits).map
        ((fun cm => cm.commitment) ∘ (fun m =>
          (⟨blinderAt c rand bits m, commitAt c x rand bits m⟩ :
            Commitment c)))).getD i 0 =
      (2 : ZMod c.q) ^ i * ((getBit x i : ZMod c.q) * c.g) +
        ((2 : ZMod c.q) ^ i * blinderAt c rand bits i) * c.h by
      rw [map_range_getD _ bits i (Finset.mem_range.mp hi) 0]
      show (2 : ZMod c.q) ^ i * commitAt c x rand bits i = _
      rw [commitAt]
      ring)]
  rw [Finset.sum_add_distrib, ← Finset.sum_mul,
    blinder_sum_zero c hq2 bits hbits rand, zero_mul, add_zero,
    Finset.sum_mul]
  exact Finset.sum_congr rfl (fun i _ => by ring)

/-! ### Bit-proof assembly and the verification loop -/

theorem getBit_lt_two (x : List ℕ) (i : ℕ) :
    getBit x i = 0 ∨ getBit x i = 1 := by
  have : getBit x i = (x.getD (i / 8) 0 >>> (i % 8)) % 2 := by
    rw [getBit, Nat.and_one_is_mod]
  omega

theorem generateRingSignature_isSome (cA cB : Curve) (bit : ℕ)
    (hbit : bit = 0 ∨ bit = 1) (comA : Commitment cA) (comB : Commitment cB)
    (j : ZMod cA.q) (k : ZMod cB.q) (ra : ZMod cA.q) (rb : ZMod cB.q) :
    ∃ rs, generateRingSignature cA cB bit comA comB j k ra rb = some rs := by
  rcases hbit with hb | hb <;> subst hb <;> exact ⟨_, rfl⟩

theorem buildBitProofs_spec (cA cB : Curve) (x : List ℕ)
    (rnd : Randomness cA cB) (lA : List (Commitment cA))
    (lB : List (Commitment cB)) :
    ∀ n i, i + n ≤ lA.length → i + n ≤ lB.length →
      ∃ l, buildBitProofs cA cB x rnd lA lB n i = some l ∧ l.length = n ∧
        ∀ m, m < n → ∃ ca cb rs,
          lA.get? (i + m) = some ca ∧ lB.get? (i + m) = some cb ∧
          generateRingSignature cA cB (getBit x (i + m)) ca cb
            (rnd.js (i + m)) (rnd.ks (i + m)) (rnd.ras (i + m))
            (rnd.rbs (i + m)) = some rs ∧
          l.get? m = some ⟨ca, cb, rs⟩ := by
  intro n
  induction n with
  | zero =>
    intro i _ _
    exact ⟨[], rfl, rfl, fun m hm => absurd hm (by omega)⟩
  | succ n ih =>
    intro i h1 h2
    have hiA : i < lA.length := by omega
    have hiB : i < lB.length := by omega
    obtain ⟨ca, hca⟩ : ∃ ca, lA.get? i = some ca :=
      ⟨lA.get ⟨i, hiA⟩, List.get?_eq_get hiA⟩
    obtain ⟨cb, hcb⟩ : ∃ cb, lB.get? i = some cb :=
      ⟨lB.get ⟨i, hiB⟩, List.get?_eq_get hiB⟩
    obtain ⟨rs, hrs⟩ := generateRingSignature_isSome cA cB (getBit x i)
      (getBit_lt_two x i) ca cb (rnd.js i) (rnd.ks i) (rnd.ras i) (rnd.rbs i)
    obtain ⟨l, hl, hlen, hmem⟩ := ih (i + 1) (by omega) (by omega)
    refine ⟨⟨ca, cb, rs⟩ :: l, ?_, by simp [hlen], ?_⟩
    · simp only [buildBitProofs, hca, hcb, hrs, hl]
    · intro m hm
      match m with
      | 0 =>
        exact ⟨ca, cb, rs, by simpa using hca, by simpa using hcb,
          by simpa using hrs, rfl⟩
      | m + 1 =>
        obtain ⟨ca2, cb2, rs2, h1', h2', h3', h4'⟩ := hmem m (by omega)
        refine ⟨ca2, cb2, rs2, ?_, ?_, ?_, ?_⟩
        · rwa [show i + (m + 1) = i + 1 + m by omega]
        · rwa [show i + (m + 1) = i + 1 + m by omega]
        · rwa [show i + (m + 1) = i + 1 + m by omega]
        · simpa using h4'

theorem ringCheck_of_closes (cA cB : Curve) (bp : bitProof cA cB)
    (h : recomputedChallenges cA cB bp =
      (bp.ringSig.eCurveA, bp.ringSig.eCurveB)) :
    ringCheck cA cB bp = true := by
  rw [ringCheck]
  rw [show (recomputedChallenges cA cB bp).1 = bp.ringSig.eCurveA by rw [h],
    show (recomputedChallenges cA cB bp).2 = bp.ringSig.eCurveB by rw [h]]
  simp

theorem verifyLoop_ok (cA cB : Curve) (p : Proof cA cB) :
    ∀ n i, (∀ m, i ≤ m → m < i + n →
        ∃ bp, p.proofs.get? m = some bp ∧ ringCheck cA cB bp = true) →
      verifyLoop cA cB p n i = .ok := by
  intro n
  induction n with
  | zero => intro i _; rfl
  | succ n ih =>
    intro i h
    obtain ⟨bp, hbp, hrc⟩ := h i (le_refl i) (by omega)
    simp only [verifyLoop, hbp, hrc, if_true]
    exact ih (i + 1) (fun m hm1 hm2 => h m (by omega) (by omega))

/-! ### Ring-challenge closure -/

theorem ringSig_closes (cA cB : Curve) (bit : ℕ) (hbit : bit = 0 ∨ bit = 1)
    (comA : Commitment cA) (comB : Commitment cB)
    (hA : comA.commitment = (bit : ZMod cA.q) * cA.g + comA.blinder * cA.h)
    (hB : comB.commitment = (bit : ZMod cB.q) * cB.g + comB.blinder * cB.h)
    (j : ZMod cA.q) (k : ZMod cB.q) (ra : ZMod cA.q) (rb : ZMod cB.q)
    (rs : ringSignature cA cB)
    (hgen : generateRingSignature cA cB bit comA comB j k ra rb = some rs) :
    recomputedChallenges cA cB ⟨comA, comB, rs⟩ = (rs.eCurveA, rs.eCurveB) := by
  rcases hbit with hb | hb <;> subst hb
  · have hA0 : comA.commitment = comA.blinder * cA.h := by
      simpa using hA
    have hB0 : comB.commitment = comB.blinder * cB.h := by
      simpa using hB
    simp only [generateRingSignature] at hgen
    injection hgen with hgen
    subst hgen
    simp only [recomputedChallenges]
    have hTA : ∀ fA : ZMod cA.q,
        (j + fA * comA.blinder) * cA.h - fA * comA.commitment = j * cA.h := by
      intro fA
      rw [hA0]
      ring
    have hTB : ∀ fB : ZMod cB.q,
        (k + fB * comB.blinder) * cB.h - fB * comB.commitment = k * cB.h := by
      intro fB
      rw [hB0]
      ring
    rw [hTA, hTB]
  · have hA1 : comA.commitment - cA.g = comA.blinder * cA.h := by
      rw [hA]
      push_cast
      ring
    have hB1 : comB.commitment - cB.g = comB.blinder * cB.h := by
      rw [hB]
      push_cast
      ring
    simp only [generateRingSignature] at hgen
    injection hgen with hgen
    subst hgen
    simp only [recomputedChallenges]
    have hUA : ∀ fA : ZMod cA.q,
        (j + fA * comA.blinder) * cA.h - fA * (comA.commitment - cA.g) =
          j * cA.h := by
      intro fA
      rw [hA1]
      ring
    have hUB : ∀ fB : ZMod cB.q,
        (k + fB * comB.blinder) * cB.h - fB * (comB.commitment - cB.g) =
          k * cB.h := by
      intro fB
      rw [hB1]
      ring
    rw [hUA, hUB]

/-! ### Serialization lemmas -/

theorem encodeBitProof_length (cA cB : Curve)
    (hpelA : ∀ P, (cA.pEnc P).length = cA.pointSize)
    (hpelB : ∀ P, (cB.pEnc P).length = cB.pointSize)
    (hselA : ∀ s, (cA.sEnc s).length = 32)
    (hselB : ∀ s, (cB.sEnc s).length = 32)
    (bp : bitProof cA cB) :
    (encodeBitProof cA cB bp).length = blockSize cA cB := by
  simp [encodeBitProof, blockSize, hpelA, hpelB, hselA, hselB]
  omega

theorem encoded_blocks_length (cA cB : Curve)
    (hpelA : ∀ P, (cA.pEnc P).length = cA.pointSize)
    (hpelB : ∀ P, (cB.pEnc P).length = cB.pointSize)
    (hselA : ∀ s, (cA.sEnc s).length = 32)
    (hselB : ∀ s, (cB.sEnc s).length = 32)
    (bps : List (bitProof cA cB)) :
    ((bps.map (encodeBitProof cA cB)).flatten).length =
      bps.length * blockSize cA cB := by
  induction bps with
  | nil => simp
  | cons bp t ih =>
    simp only [List.map_cons, List.flatten_cons, List.length_append, ih,
      List.length_cons, encodeBitProof_length cA cB hpelA hpelB hselA hselB]
    ring

theorem decodeBitProof_encode (cA cB : Curve)
    (hpelA : ∀ P, (cA.pEnc P).length = cA.pointSize)
    (hpdA : ∀ P, cA.pDec (cA.pEnc P) = some P)
    (hselA : ∀ s, (cA.sEnc s).length = 32)
    (hsdA : ∀ s, cA.sDec (cA.sEnc s) = some s)
    (hpelB : ∀ P, (cB.pEnc P).length = cB.pointSize)
    (hpdB : ∀ P, cB.pDec (cB.pEnc P) = some P)
    (hselB : ∀ s, (cB.sEnc s).length = 32)
    (hsdB : ∀ s, cB.sDec (cB.sEnc s) = some s)
    (bp : bitProof cA cB) (rest : List ℕ) :
    decodeBitProof cA cB (encodeBitProof cA cB bp ++ rest) =
      some (stripBit cA cB bp, rest) := by
  unfold decodeBitProof encodeBitProof
  simp only [List.append_assoc]
  rw [List.take_left' (hpelA _), List.drop_left' (hpelA _), hpdA]
  simp only [Option.bind_eq_bind, Option.some_bind]
  rw [List.take_left' (hpelB _), List.drop_left' (hpelB _), hpdB]
  simp only [Option.bind_eq_bind, Option.some_bind]
  rw [List.take_left' (hselA _), List.drop_left' (hselA _), hsdA]
  simp only [Option.bind_eq_bind, Option.some_bind]
  rw [List.take_left' (hselB _), List.drop_left' (hselB _), hsdB]
  simp only [Option.bind_eq_bind, Option.some_bind]
  rw [List.take_left' (hselA _), List.drop_left' (hselA _), hsdA]
  simp only [Option.bind_eq_bind, Option.some_bind]
  rw [List.take_left' (hselA _), List.drop_left' (hselA _), hsdA]
  simp only [Option.bind_eq_bind, Option.some_bind]
  rw [List.take_left' (hselB _), List.drop_left' (hselB _), hsdB]
  simp only [Option.bind_eq_bind, Option.some_bind]
  rw [List.take_left' (hselB _), List.drop_left' (hselB _), hsdB]
  simp only [Option.bind_eq_bind, Option.some_bind]
  rfl

theorem decodeBitProofs_encode (cA cB : Curve)
    (hpelA : ∀ P, (cA.pEnc P).length = cA.pointSize)
    (hpdA : ∀ P, cA.pDec (cA.pEnc P) = some P)
    (hselA : ∀ s, (cA.sEnc s).length = 32)
    (hsdA : ∀ s, cA.sDec (cA.sEnc s) = some s)
    (hpelB : ∀ P, (cB.pEnc P).length = cB.pointSize)
    (hpdB : ∀ P, cB.pDec (cB.pEnc P) = some P)
    (hselB : ∀ s, (cB.sEnc s).length = 32)
    (hsdB : ∀ s, cB.sDec (cB.sEnc s) = some s)
    (bps : List (bitProof cA cB)) (rest : List ℕ) :
    decodeBitProofs cA cB bps.length
        ((bps.map (encodeBitProof cA cB)).flatten ++ rest) =
      some (bps.map (stripBit cA cB), rest) := by
  induction bps with
  | nil => rfl
  | cons bp t ih =>
    simp only [List.map_cons, List.flatten_cons, List.length_cons,
      List.append_assoc]
    simp only [decodeBitProofs]
    rw [decodeBitProof_encode cA cB hpelA hpdA hselA hsdA hpelB hpdB hselB
      hsdB bp _]
    simp only [Option.bind_eq_bind, Option.some_bind]
    rw [ih]
    rfl

/-! ### Verification ignores the stored blinders -/

theorem verifyCommitmentsSum_map_commitment (c : Curve)
    (l₁ l₂ : List (Commitment c))
    (h : l₁.map (·.commitment) = l₂.map (·.commitment)) (pt : ZMod c.q) :
    verifyCommitmentsSum c l₁ pt = verifyCommitmentsSum c l₂ pt := by
  by_cases hne : l₁ = []
  · subst hne
    have h2 : l₂ = [] := List.map_eq_nil_iff.mp h.symm
    subst h2
    rfl
  · have hne2 : l₂ ≠ [] := by
      intro hcon
      subst hcon
      simp only [List.map_nil, List.map_eq_nil_iff] at h
      exact hne h
    rw [verifyCommitmentsSum_spec c l₁ hne pt,
      verifyCommitmentsSum_spec c l₂ hne2 pt, h]

theorem verifyLoop_strip (cA cB : Curve) (p : Proof cA cB) :
    ∀ n i, verifyLoop cA cB (stripBlinders cA cB p) n i =
      verifyLoop cA cB p n i := by
  intro n
  induction n with
  | zero => intro i; rfl
  | succ n ih =>
    intro i
    simp only [verifyLoop]
    have hget : (stripBlinders cA cB p).proofs.get? i =
        (p.proofs.get? i).map (stripBit cA cB) := by
      simp [stripBlinders, List.get?_map]
    rw [hget]
    cases hpc : p.proofs.get? i with
    | none => rfl
    | some bp =>
      rw [show Option.map (stripBit cA cB) (some bp) =
        some (stripBit cA cB bp) from rfl]
      show (if ringCheck cA cB (stripBit cA cB bp) = true then
          verifyLoop cA cB (stripBlinders cA cB p) n (i + 1)
        else VerifyResult.ringErr i) = _
      rw [show ringCheck cA cB (stripBit cA cB bp) = ringCheck cA cB bp
        from rfl, ih (i + 1)]

theorem Verify_strip (cA cB : Curve) (p : Proof cA cB) :
    Verify cA cB (stripBlinders cA cB p) = Verify cA cB p := by
  have hmapA : ((stripBlinders cA cB p).proofs.map (fun x => x.commitmentA)).map
      (·.commitment) =
      (p.proofs.map (fun x => x.commitmentA)).map (·.commitment) := by
    show ((p.proofs.map (stripBit cA cB)).map (fun x => x.commitmentA)).map
      (·.commitment) = _
    simp only [List.map_map]
    rfl
  have hmapB : ((stripBlinders cA cB p).proofs.map (fun x => x.commitmentB)).map
      (·.commitment) =
      (p.proofs.map (fun x => x.commitmentB)).map (·.commitment) := by
    show ((p.proofs.map (stripBit cA cB)).map (fun x => x.commitmentB)).map
      (·.commitment) = _
    simp only [List.map_map]
    rfl
  unfold Verify
  rw [show (stripBlinders cA cB p).CommitmentA = p.CommitmentA from rfl,
    show (stripBlinders cA cB p).CommitmentB = p.CommitmentB from rfl,
    show (stripBlinders cA cB p).signatureA = p.signatureA from rfl,
    show (stripBlinders cA cB p).signatureB = p.signatureB from rfl,
    verifyCommitmentsSum_map_commitment cA _
      (p.proofs.map (fun x => x.commitmentA)) hmapA p.CommitmentA,
    verifyCommitmentsSum_map_commitment cB _
      (p.proofs.map (fun x => x.commitmentB)) hmapB p.CommitmentB]
  cases verifyCommitmentsSum cA (p.proofs.map (fun x => x.commitmentA))
      p.CommitmentA with
  | none => rfl
  | some bA =>
    cases bA
    · rfl
    · cases verifyCommitmentsSum cB (p.proofs.map (fun x => x.commitmentB))
          p.CommitmentB with
      | none => rfl
      | some bB =>
        cases bB
        · rfl
        · by_cases hv1 : cA.sigVerify p.CommitmentA p.CommitmentA
              p.signatureA = false
          · simp [hv1]
          · by_cases hv2 : cB.sigVerify p.CommitmentB p.CommitmentB
                p.signatureB = false
            · simp [hv1, hv2]
            · simp [hv1, hv2, verifyLoop_strip cA cB p]

/-! ### Claim C7 -/

/-- C7: for every proof whose bit-proof count and signature lengths fit in
one byte (as all proofs produced by `NewProof` on the supported pair do:
252 bit proofs, DER ≤ 72 and Schnorr = 64 byte signatures), provided the
curve adapters' encoders have their declared fixed lengths and their
decoders invert the encoders, `Deserialize ∘ Serialize` succeeds and
returns exactly the proof's serialized content (commitments, ring scalars
and signatures; the prover-side blinders are not serialized, which
`stripBlinders` expresses), and the deserialized proof passes `Verify`
whenever the original does. -/
theorem c7_serialization_roundtrip (cA cB : Curve)
    (hpelA : ∀ P, (cA.pEnc P).length = cA.pointSize)
    (hpdA : ∀ P, cA.pDec (cA.pEnc P) = some P)
    (hselA : ∀ s, (cA.sEnc s).length = 32)
    (hsdA : ∀ s, cA.sDec (cA.sEnc s) = some s)
    (hpelB : ∀ P, (cB.pEnc P).length = cB.pointSize)
    (hpdB : ∀ P, cB.pDec (cB.pEnc P) = some P)
    (hselB : ∀ s, (cB.sEnc s).length = 32)
    (hsdB : ∀ s, cB.sDec (cB.sEnc s) = some s)
    (p : Proof cA cB)
    (hnp : p.proofs.length ≤ 255)
    (hsaLen : p.signatureA.length ≤ 255)
    (hsbLen : p.signatureB.length ≤ 255) :
    Deserialize cA cB (Serialize cA cB p) = some (stripBlinders cA cB p) ∧
      (Verify cA cB p = .ok → Verify cA cB (stripBlinders cA cB p) = .ok) := by
  refine ⟨?_, fun h => by rw [Verify_strip cA cB p]; exact h⟩
  have hmodn : p.proofs.length % 256 = p.proofs.length :=
    Nat.mod_eq_of_lt (by omega)
  have hmodA : p.signatureA.length % 256 = p.signatureA.length :=
    Nat.mod_eq_of_lt (by omega)
  have hmodB : p.signatureB.length % 256 = p.signatureB.length :=
    Nat.mod_eq_of_lt (by omega)
  have hblocks := encoded_blocks_length cA cB hpelA hpelB hselA hselB p.proofs
  simp only [blockSize] at hblocks
  simp only [Serialize, Deserialize, hmodn, hmodA, hmodB, List.append_assoc,
    List.singleton_append]
  rw [if_neg (by
    simp only [List.length_append, hpelA, hpelB, List.length_cons]
    omega)]
  rw [List.take_left' (hpelA _), hpdA, List.drop_left' (hpelA _)]
  rw [List.take_left' (hpelB _), hpdB, List.drop_left' (hpelB _)]
  have h2 : ¬ ((List.map (encodeBitProof cA cB) p.proofs).flatten ++
      (p.signatureA.length :: p.signatureA ++
        p.signatureB.length :: p.signatureB)).length <
      p.proofs.length * (cA.pointSize + cB.pointSize + 32 * 6) := by
    simp only [List.length_append, List.length_cons, hblocks]
    omega
  have hdec := decodeBitProofs_encode cA cB hpelA hpdA hselA hsdA hpelB hpdB
    hselB hsdB p.proofs
    (p.signatureA.length :: p.signatureA ++ p.signatureB.length :: p.signatureB)
  have htk1 : (p.signatureA ++ p.signatureB.length :: p.signatureB).take
      p.signatureA.length = p.signatureA := List.take_left' rfl
  have hdr1 : (p.signatureA ++ p.signatureB.length :: p.signatureB).drop
      p.signatureA.length = p.signatureB.length :: p.signatureB :=
    List.drop_left' rfl
  have h3 : ¬ (p.signatureA ++ p.signatureB.length :: p.signatureB).length <
      p.signatureA.length := by
    simp only [List.length_append, List.length_cons]
    omega
  have h4 : ¬ p.signatureB.length < p.signatureB.length := by omega
  simp only [if_neg h2, hdec, htk1, hdr1, if_neg h3, if_neg h4,
    List.take_length]
  split
  case h_1 x heq => exact absurd heq (by simp)
  case h_2 x nb r3 heq =>
    injection heq with h5 h6
    subst h5
    subst h6
    simp only [List.append_eq]
    rw [if_neg h2, hdec]
    split
    case h_1 x2 heq2 => exact absurd heq2 (by simp)
    case h_2 x2 bps r4 heq2 =>
      injection heq2 with h7
      injection h7 with h8 h9
      subst h8
      subst h9
      split
      case h_1 x3 heq3 => exact absurd heq3 (by simp)
      case h_2 x3 sA r5 heq3 =>
        injection heq3 with hA hB
        subst hA
        subst hB
        simp only [List.append_eq]
        rw [if_neg h3, hdr1]
        split
        case h_1 x4 heq4 => exact absurd heq4 (by simp)
        case h_2 x4 sB r7 heq4 =>
          injection heq4 with hC hD
          subst hC
          subst hD
          rw [if_neg h4, htk1, List.take_length]
          rfl

/-- C7 (witness): round trip on the tiny concrete curve pair for a proof
with one bit proof and 2-byte signatures. -/
theorem c7_serialization_roundtrip_witness :
    Deserialize (toy 5) (toy 4)
        (Serialize (toy 5) (toy 4)
          ⟨1, 2, [⟨⟨1, 2⟩, ⟨2, 1⟩, ⟨1, 2, 0, 1, 2, 0⟩⟩], [7, 8], [9]⟩) =
      some (stripBlinders (toy 5) (toy 4)
        ⟨1, 2, [⟨⟨1, 2⟩, ⟨2, 1⟩, ⟨1, 2, 0, 1, 2, 0⟩⟩], [7, 8], [9]⟩) :=
  (c7_serialization_roundtrip (toy 5) (toy 4)
    (fun P => rfl)
    (by decide : ∀ P : ZMod 3, (toy 5).pDec ((toy 5).pEnc P) = some P)
    (by decide : ∀ s : ZMod 3, ((toy 5).sEnc s).length = 32)
    (by decide : ∀ s : ZMod 3, (toy 5).sDec ((toy 5).sEnc s) = some s)
    (fun P => rfl)
    (by decide : ∀ P : ZMod 3, (toy 4).pDec ((toy 4).pEnc P) = some P)
    (by decide : ∀ s : ZMod 3, ((toy 4).sEnc s).length = 32)
    (by decide : ∀ s : ZMod 3, (toy 4).sDec ((toy 4).sEnc s) = some s)
    ⟨1, 2, [⟨⟨1, 2⟩, ⟨2, 1⟩, ⟨1, 2, 0, 1, 2, 0⟩⟩], [7, 8], [9]⟩
    (by decide) (by decide) (by decide)).1

theorem decodeBitProof_rest (cA cB : Curve) (r : List ℕ) (bp : bitProof cA cB)
    (rest : List ℕ) (h : decodeBitProof cA cB r = some (bp, rest)) :
    rest = r.drop (blockSize cA cB) := by
  unfold decodeBitProof at h
  simp only [Option.bind_eq_bind, Option.bind_eq_some, Option.some.injEq,
    Prod.mk.injEq] at h
  obtain ⟨a1, -, a2, -, a3, -, a4, -, a5, -, a6, -, a7, -, a8, -, -, hrest⟩ := h
  rw [← hrest]
  simp only [List.drop_drop, blockSize]

theorem decodeBitProofs_rest (cA cB : Curve) (n : ℕ) :
    ∀ (r : List ℕ) (bps : List (bitProof cA cB)) (rest : List ℕ),
      decodeBitProofs cA cB n r = some (bps, rest) →
      rest = r.drop (n * blockSize cA cB) := by
  induction n with
  | zero =>
    intro r bps rest h
    simp only [decodeBitProofs, Option.some.injEq, Prod.mk.injEq] at h
    rw [← h.2]
    simp
  | succ n ih =>
    intro r bps rest h
    simp only [decodeBitProofs, Option.bind_eq_bind, Option.bind_eq_some] at h
    obtain ⟨⟨bp, r1⟩, h1, h2⟩ := h
    simp only [Option.bind_eq_bind, Option.bind_eq_some] at h2
    obtain ⟨⟨bps2, r2⟩, h3, h4⟩ := h2
    simp only [Option.some.injEq, Prod.mk.injEq] at h4
    obtain ⟨-, hrest⟩ := h4
    rw [← hrest, ih r1 bps2 r2 h3, decodeBitProof_rest cA cB r bp r1 h1,
      List.drop_drop]
    congr 1
    ring

/-! ### Claim C8 -/

/-- C8: whenever the input byte string is shorter than its layout requires
(the two leading points, the nbits byte, the nbits fixed-size bit-proof
blocks, and the two length-prefixed signatures, with the nbits and length
bytes read at their own offsets), `Deserialize` returns an error (`none`)
rather than reading out of bounds: every stage's length check fires before
the corresponding read. -/
theorem c8_truncation (cA cB : Curve) (inp : List ℕ)
    (hshort : inp.length < requiredLen cA cB inp) :
    Deserialize cA cB inp = none := by
  cases hD : Deserialize cA cB inp with
  | none => rfl
  | some p =>
    exfalso
    simp only [Deserialize] at hD
    split at hD
    · exact Option.noConfusion hD
    · split at hD
      · injection hD
      · split at hD
        · exact absurd hD (by simp)
        · split at hD
          · injection hD
          · rename_i nb r3 hd
            have hdd : inp.drop (cA.pointSize + cB.pointSize) =
                nb :: r3 := by
              rw [← List.drop_drop]
              exact hd
            have hnb : inp.getD (cA.pointSize + cB.pointSize) 0 =
                nb := by
              have h0 : (inp.drop
                  (cA.pointSize + cB.pointSize))[0]? = some nb := by
                rw [hdd]
                exact List.getElem?_cons_zero
              rw [List.getElem?_drop] at h0
              simp only [Nat.add_zero] at h0
              simp [List.getD_eq_getElem?_getD, h0]
            have hr3 : inp.drop (cA.pointSize + cB.pointSize + 1) =
                r3 := by
              have h0 : (inp.drop
                  (cA.pointSize + cB.pointSize)).drop 1 = r3 := by
                rw [hdd]; rfl
              rwa [List.drop_drop] at h0
            split at hD
            · exact Option.noConfusion hD
            · rename_i h2
              split at hD
              · injection hD
              · rename_i bps r4 hdec
                split at hD
                · exact absurd hD (by simp)
                · rename_i sAv r5
                  have h5 := decodeBitProofs_rest cA cB nb r3 bps
                    (sAv :: r5) hdec
                  have h6 : inp.drop (cA.pointSize + cB.pointSize + 1 +
                      nb * blockSize cA cB) = sAv :: r5 := by
                    rw [← List.drop_drop, hr3]
                    exact h5.symm
                  have hlen4 : inp.length -
                      (cA.pointSize + cB.pointSize + 1 +
                        nb * blockSize cA cB) = r5.length + 1 := by
                    have := congrArg List.length h6
                    simpa using this
                  have hsa : inp.getD (cA.pointSize + cB.pointSize + 1 +
                      nb * blockSize cA cB) 0 = sAv := by
                    have h0 : (inp.drop (cA.pointSize + cB.pointSize + 1 +
                        nb * blockSize cA cB))[0]? = some sAv := by
                      rw [h6]
                      exact List.getElem?_cons_zero
                    rw [List.getElem?_drop] at h0
                    simp only [Nat.add_zero] at h0
                    simp [List.getD_eq_getElem?_getD, h0]
                  have hr5d : inp.drop (cA.pointSize + cB.pointSize + 1 +
                      nb * blockSize cA cB + 1) = r5 := by
                    have h0 : (inp.drop (cA.pointSize + cB.pointSize + 1 +
                        nb * blockSize cA cB)).drop 1 = r5 := by
                      rw [h6]; rfl
                    rwa [List.drop_drop] at h0
                  split at hD
                  · injection hD
                  · rename_i h3
                    split at hD
                    · exact Option.noConfusion hD
                    · rename_i sBv r7 hr5
                      have h7 : inp.drop (cA.pointSize + cB.pointSize + 1 +
                          nb * blockSize cA cB + 1 + sAv) = sBv :: r7 := by
                        rw [← List.drop_drop, hr5d]
                        exact hr5
                      have hlen5 : inp.length -
                          (cA.pointSize + cB.pointSize + 1 +
                            nb * blockSize cA cB + 1 + sAv) =
                          r7.length + 1 := by
                        have := congrArg List.length h7
                        simpa using this
                      have hsb : inp.getD (cA.pointSize + cB.pointSize + 1 +
                          nb * blockSize cA cB + 1 + sAv) 0 = sBv := by
                        have h0 : (inp.drop (cA.pointSize + cB.pointSize + 1 +
                            nb * blockSize cA cB + 1 + sAv))[0]? =
                            some sBv := by
                          rw [h7]
                          exact List.getElem?_cons_zero
                        rw [List.getElem?_drop] at h0
                        simp only [Nat.add_zero] at h0
                        simp [List.getD_eq_getElem?_getD, h0]
                      split at hD
                      · injection hD
                      · rename_i h4
                        simp only [requiredLen] at hshort
                        rw [hnb, hsa, hsb] at hshort
                        omega

/-- C8 (witness): a buffer holding the two leading points and an nbits byte
of 1, but none of the promised bit-proof block, is rejected. -/
theorem c8_truncation_witness :
    [1, 1, 1].length < requiredLen (toy 5) (toy 4) [1, 1, 1] ∧
      Deserialize (toy 5) (toy 4) [1, 1, 1] = none :=
  ⟨by decide, c8_truncation (toy 5) (toy 4) [1, 1, 1] (by decide)⟩

/-! ### Claim C1 -/

/-- C1: end-to-end completeness for the secp256k1/Ed25519 curve pair (bit
sizes 255 and 252, hence 252 bit proofs).  For every 32-byte witness that
passes the witness-size check, and every CSPRNG draw that avoids the
measure-zero panic conditions of `generateCommitments` (nonzero blinders
and commitments), `NewProof` returns a proof and `Verify` accepts it: the
commitment sums match on both curves, both signatures verify (the
adapters' signature correctness is the `hsigA`/`hsigB` hypothesis, as
signing lives in the external adapters), and all 252 ring checks close. -/
theorem c1_end_to_end_completeness (cA cB : Curve)
    (hbsA : cA.bitSize = 255) (hbsB : cB.bitSize = 252)
    (hqA : cA.q ≠ 2) (hqB : cB.q ≠ 2)
    (x : List ℕ) (hlen : x.length = 32) (hbytes : ∀ b ∈ x, b < 256)
    (hcheck : checkWitnessSize x 252 = some true)
    (rnd : Randomness cA cB)
    (hrA : ∀ i, i < 251 → rnd.rA i ≠ 0)
    (hrB : ∀ i, i < 251 → rnd.rB i ≠ 0)
    (hlastA : blinderAt cA rnd.rA 252 251 ≠ 0)
    (hlastB : blinderAt cB rnd.rB 252 251 ≠ 0)
    (hcomA : ∀ i, i < 252 → commitAt cA x rnd.rA 252 i ≠ 0)
    (hcomB : ∀ i, i < 252 → commitAt cB x rnd.rB 252 i ≠ 0)
    (hsigA : cA.sigVerify (((leNat x : ℕ) : ZMod cA.q) * cA.g)
      (((leNat x : ℕ) : ZMod cA.q) * cA.g)
      (cA.sign ((leNat x : ℕ) : ZMod cA.q)
        (((leNat x : ℕ) : ZMod cA.q) * cA.g)) = true)
    (hsigB : cB.sigVerify (((leNat x : ℕ) : ZMod cB.q) * cB.g)
      (((leNat x : ℕ) : ZMod cB.q) * cB.g)
      (cB.sign ((leNat x : ℕ) : ZMod cB.q)
        (((leNat x : ℕ) : ZMod cB.q) * cB.g)) = true) :
    ∃ p, NewProof cA cB x rnd = some p ∧ Verify cA cB p = .ok := by
  have hmin : min cA.bitSize cB.bitSize = 252 := by
    rw [hbsA, hbsB]
    omega
  set fA := fun m => (⟨blinderAt cA rnd.rA 252 m,
    commitAt cA x rnd.rA 252 m⟩ : Commitment cA) with hfA
  set fB := fun m => (⟨blinderAt cB rnd.rB 252 m,
    commitAt cB x rnd.rB 252 m⟩ : Commitment cB) with hfB
  set LA := (List.range 252).map fA with hLA
  set LB := (List.range 252).map fB with hLB
  have hgenA : generateCommitments cA x 252 rnd.rA = some LA :=
    generateCommitments_spec cA hqA x 252 rnd.rA
      (fun i hi => hrA i (by omega)) (by simpa using hlastA)
      (fun i hi => hcomA i (by omega))
  have hgenB : generateCommitments cB x 252 rnd.rB = some LB :=
    generateCommitments_spec cB hqB x 252 rnd.rB
      (fun i hi => hrB i (by omega)) (by simpa using hlastB)
      (fun i hi => hcomB i (by omega))
  have hhigh : ∀ n, 252 ≤ n → n < 256 → getBit x n = 0 :=
    (checkWitnessSize_spec x hlen hbytes 252 (by norm_num) (by norm_num)
      (by norm_num)).mp hcheck
  have hxA : ((leNat x : ℕ) : ZMod cA.q) =
      ∑ i ∈ Finset.range 252, (2 : ZMod cA.q) ^ i * (getBit x i : ZMod cA.q) := by
    rw [leNat_eq_low_bits x hlen hbytes 252 (by norm_num) hhigh]
    push_cast
    rfl
  have hxB : ((leNat x : ℕ) : ZMod cB.q) =
      ∑ i ∈ Finset.range 252, (2 : ZMod cB.q) ^ i * (getBit x i : ZMod cB.q) := by
    rw [leNat_eq_low_bits x hlen hbytes 252 (by norm_num) hhigh]
    push_cast
    rfl
  have hneLA : LA ≠ [] := by
    rw [hLA]
    simp
  have hneLB : LB ≠ [] := by
    rw [hLB]
    simp
  have hspecA : specWeightedSum cA (LA.map (·.commitment)) =
      ((leNat x : ℕ) : ZMod cA.q) * cA.g := by
    rw [hLA, hfA, generated_commitments_sum cA hqA x 252 (by norm_num) rnd.rA,
      hxA]
  have hspecB : specWeightedSum cB (LB.map (·.commitment)) =
      ((leNat x : ℕ) : ZMod cB.q) * cB.g := by
    rw [hLB, hfB, generated_commitments_sum cB hqB x 252 (by norm_num) rnd.rB,
      hxB]
  have hsumA : verifyCommitmentsSum cA LA
      (((leNat x : ℕ) : ZMod cA.q) * cA.g) = some true := by
    rw [verifyCommitmentsSum_spec cA LA hneLA _, hspecA]
    simp
  have hsumB : verifyCommitmentsSum cB LB
      (((leNat x : ℕ) : ZMod cB.q) * cB.g) = some true := by
    rw [verifyCommitmentsSum_spec cB LB hneLB _, hspecB]
    simp
  obtain ⟨l, hbuild, hlenl, hmem⟩ := buildBitProofs_spec cA cB x rnd LA LB
    252 0 (by rw [hLA]; simp) (by rw [hLB]; simp)
  have hgetLA : ∀ m, m < 252 → LA.get? m = some (fA m) := by
    intro m hm
    rw [hLA, List.get?_map, List.get?_range hm]
    rfl
  have hgetLB : ∀ m, m < 252 → LB.get? m = some (fB m) := by
    intro m hm
    rw [hLB, List.get?_map, List.get?_range hm]
    rfl
  have hnew : NewProof cA cB x rnd = some
      ⟨((leNat x : ℕ) : ZMod cA.q) * cA.g,
       ((leNat x : ℕ) : ZMod cB.q) * cB.g, l,
       cA.sign ((leNat x : ℕ) : ZMod cA.q)
         (((leNat x : ℕ) : ZMod cA.q) * cA.g),
       cB.sign ((leNat x : ℕ) : ZMod cB.q)
         (((leNat x : ℕ) : ZMod cB.q) * cB.g)⟩ := by
    simp only [NewProof, hmin, hcheck, hgenA, hsumA, hgenB, hsumB, hbuild]
  refine ⟨_, hnew, ?_⟩
  have hmapA : List.map (fun bp => bp.commitmentA) l = LA := by
    apply List.ext_get?
    intro m
    by_cases hm : m < 252
    · obtain ⟨ca, cb, rs, hca, hcb, hrs, hgetl⟩ := hmem m hm
      rw [List.get?_map, hgetl]
      rw [show (0 : ℕ) + m = m by omega] at hca
      rw [hca]
      rfl
    · rw [List.get?_map, List.get?_eq_none.mpr (by omega),
        List.get?_eq_none.mpr (by rw [hLA]; simp; omega)]
      rfl
  have hmapB : List.map (fun bp => bp.commitmentB) l = LB := by
    apply List.ext_get?
    intro m
    by_cases hm : m < 252
    · obtain ⟨ca, cb, rs, hca, hcb, hrs, hgetl⟩ := hmem m hm
      rw [List.get?_map, hgetl]
      rw [show (0 : ℕ) + m = m by omega] at hcb
      rw [hcb]
      rfl
    · rw [List.get?_map, List.get?_eq_none.mpr (by omega),
        List.get?_eq_none.mpr (by rw [hLB]; simp; omega)]
      rfl
  show Verify cA cB _ = VerifyResult.ok
  simp only [Verify, hmapA, hmapB, hsumA, hsumB, hsigA, hmin]
  rw [if_neg (by simp), if_neg (by rw [hsigB]; simp)]
  apply verifyLoop_ok
  intro m hm0 hm252
  obtain ⟨ca, cb, rs, hca, hcb, hrs, hgetl⟩ := hmem m (by omega)
  rw [show (0 : ℕ) + m = m by omega] at hca hcb hrs
  refine ⟨⟨ca, cb, rs⟩, hgetl, ?_⟩
  have hcaEq : ca = fA m := by
    have := hgetLA m (by omega)
    rw [this] at hca
    exact (Option.some.injEq _ _).mp hca.symm
  have hcbEq : cb = fB m := by
    have := hgetLB m (by omega)
    rw [this] at hcb
    exact (Option.some.injEq _ _).mp hcb.symm
  apply ringCheck_of_closes
  apply ringSig_closes cA cB (getBit x m) (getBit_lt_two x m) ca cb ?_ ?_
    (rnd.js m) (rnd.ks m) (rnd.ras m) (rnd.rbs m) rs hrs
  · rw [hcaEq]
    rfl
  · rw [hcbEq]
    rfl

theorem toy_blinder (bs : ℕ) :
    blinderAt (toy bs) (fun _ => 1) 252 251 = 1 := by
  haveI := Fact.mk (toy bs).q_prime
  have h2 : (2 : ZMod (toy bs).q) = -1 := by
    show (2 : ZMod 3) = -1
    decide
  rw [blinderAt, if_pos (by omega)]
  have hsum : (∑ j ∈ Finset.range (252 - 1),
      (fun _ => (1 : ZMod (toy bs).q)) j * 2 ^ j) = 1 := by
    rw [Finset.sum_congr rfl (fun j _ =>
      show (fun _ => (1 : ZMod (toy bs).q)) j * 2 ^ j = (-1) ^ j by
        rw [h2]
        ring)]
    rw [neg_one_geom_sum]
    rw [if_neg (by decide)]
  rw [hsum, h2, Odd.neg_one_pow (by decide), inv_neg_one]
  ring

theorem toy_commit (bs : ℕ) :
    ∀ i, i < 252 → commitAt (toy bs) (List.replicate 32 0)
      (fun _ => 1) 252 i ≠ 0 := by
  intro i hi
  rw [commitAt]
  have hbit : getBit (List.replicate 32 0) i = 0 := by
    rw [getBit]
    have hz : (List.replicate 32 (0 : ℕ)).getD (i / 8) 0 = 0 := by
      rcases Nat.lt_or_ge (i / 8) 32 with hcase | hcase
      · rw [List.getD_eq_getElem _ 0 (by simpa using hcase)]
        exact List.getElem_replicate _ _
      · rw [List.getD_eq_default _ 0 (by simpa using hcase)]
    rw [hz]
    simp
  rw [hbit]
  push_cast
  rw [zero_mul, zero_add]
  by_cases h251 : i = 251
  · subst h251
    rw [toy_blinder bs]
    show (1 : ZMod 3) * 2 ≠ 0
    decide
  · rw [blinderAt, if_neg (by omega)]
    show (1 : ZMod 3) * 2 ≠ 0
    decide

/-- C1 (witness): a concrete instantiation of the completeness theorem on
the tiny curve pair with bit sizes 255 and 252, the all-zero witness and
constant CSPRNG output 1. -/
theorem c1_end_to_end_completeness_witness :
    ∃ p, NewProof (toy 255) (toy 252) (List.replicate 32 0)
        ⟨fun _ => 1, fun _ => 1, fun _ => 1, fun _ => 1, fun _ => 1,
          fun _ => 1⟩ = some p ∧
      Verify (toy 255) (toy 252) p = .ok :=
  c1_end_to_end_completeness (toy 255) (toy 252) rfl rfl (by decide)
    (by decide) (List.replicate 32 0) (by decide) (by decide) (by decide)
    ⟨fun _ => 1, fun _ => 1, fun _ => 1, fun _ => 1, fun _ => 1, fun _ => 1⟩
    (fun i _ => (by decide : (1 : ZMod (toy 255).q) ≠ 0))
    (fun i _ => (by decide : (1 : ZMod (toy 252).q) ≠ 0))
    (by show blinderAt (toy 255) (fun _ => 1) 252 251 ≠ 0
        rw [toy_blinder 255]
        decide)
    (by show blinderAt (toy 252) (fun _ => 1) 252 251 ≠ 0
        rw [toy_blinder 252]
        decide)
    (toy_commit 255) (toy_commit 252) rfl rfl

/-! ### Claim C2 -/

/-- C2: for every bit proof produced by the prover (a well-formed commitment
pair `C_g = b·G_g + r_g·H_g` with `b ∈ {0,1}` and the ring signature
returned by `generateRingSignature`), the verifier's recomputation
`T_g = a1·H_g − eCurve_g·C_g`, rehash, `U_g = a0·H_g − e'·(C_g − G_g)`,
rehash, yields exactly the stored challenge pair `(eCurveA, eCurveB)`;
consequently the ring check accepts, and the ring check is exactly the
conjunction of the two challenge equalities. -/
theorem c2_ring_challenge_closure (cA cB : Curve) (bit : ℕ)
    (hbit : bit = 0 ∨ bit = 1)
    (comA : Commitment cA) (comB : Commitment cB)
    (hA : comA.commitment = (bit : ZMod cA.q) * cA.g + comA.blinder * cA.h)
    (hB : comB.commitment = (bit : ZMod cB.q) * cB.g + comB.blinder * cB.h)
    (j : ZMod cA.q) (k : ZMod cB.q) (ra : ZMod cA.q) (rb : ZMod cB.q)
    (rs : ringSignature cA cB)
    (hgen : generateRingSignature cA cB bit comA comB j k ra rb = some rs) :
    recomputedChallenges cA cB ⟨comA, comB, rs⟩ = (rs.eCurveA, rs.eCurveB) ∧
      ringCheck cA cB ⟨comA, comB, rs⟩ = true ∧
      (∀ bp : bitProof cA cB, ringCheck cA cB bp = true ↔
        ((recomputedChallenges cA cB bp).1 = bp.ringSig.eCurveA ∧
          (recomputedChallenges cA cB bp).2 = bp.ringSig.eCurveB)) := by
  have hclose := ringSig_closes cA cB bit hbit comA comB hA hB j k ra rb rs hgen
  refine ⟨hclose, ?_, ?_⟩
  · rw [ringCheck]
    rw [show (recomputedChallenges cA cB ⟨comA, comB, rs⟩).1 = rs.eCurveA by
      rw [hclose]]
    rw [show (recomputedChallenges cA cB ⟨comA, comB, rs⟩).2 = rs.eCurveB by
      rw [hclose]]
    simp
  · intro bp
    rw [ringCheck, Bool.and_eq_true, decide_eq_true_iff, decide_eq_true_iff]

/-- C2 (witness): on the tiny concrete curve pair, the ring signature
generated for bit 0 with commitments `C = 0·G + 1·H` passes the ring
check. -/
theorem c2_ring_challenge_closure_witness :
    ringCheck (toy 5) (toy 4)
      ⟨⟨1, 2⟩, ⟨1, 2⟩,
        (generateRingSignature (toy 5) (toy 4) 0 ⟨1, 2⟩ ⟨1, 2⟩ 1 1 1 1).getD
          default⟩ = true :=
  (c2_ring_challenge_closure (toy 5) (toy 4) 0 (Or.inl rfl) ⟨1, 2⟩ ⟨1, 2⟩
    (by decide) (by decide) 1 1 1 1 _ (by decide)).2.1

/-! ### Claim C6 -/

theorem leBytes_length (k : ℕ) : ∀ n, (leBytes k n).length = k := by
  induction k with
  | zero => intro n; rfl
  | succ k ih =>
    intro n
    simp only [leBytes, List.length_cons, ih]

theorem leNat_leBytes (k : ℕ) : ∀ n, n < 2 ^ (8 * k) → leNat (leBytes k n) = n := by
  induction k with
  | zero =>
    intro n hn
    interval_cases n
    rfl
  | succ k ih =>
    intro n hn
    show n % 256 + 256 * leNat (leBytes k (n / 256)) = n
    rw [ih (n / 256) (by
      have : 2 ^ (8 * (k + 1)) = 2 ^ (8 * k) * 256 := by ring
      omega)]
    omega

theorem edOrder_lt : edOrder < 2 ^ (8 * 32) := by norm_num [edOrder]

theorem leBytes_roundtrip (x : ZMod edOrder) :
    ((leNat (leBytes 32 x.val) : ℕ) : ZMod edOrder) = x := by
  rw [leNat_leBytes 32 x.val (lt_trans (ZMod.val_lt x) edOrder_lt)]
  exact ZMod.natCast_rightInverse x

/-- C6: the ed25519 adapter's Schnorr signature round-trips: for every
secret scalar `s` and point `P` (points stand for their discrete logs, so
`A = s·G` is `s`), with any 64-byte hash and any 32-byte point encoding
inverted by its decoder, `Sign(s, P)` returns exactly
`encode(R) ∥ encode(S)` where `r` is the reduced SHA-512 of the encoded
secret, `R = r·G`, `c` the reduced hash of `encode(R) ∥ encode(A) ∥
encode(P)` and `S = r + c·s`; and `Verify(A, P, Sign(s, P))` accepts by
recomputing `c` and checking `S·G − c·A = R`. -/
theorem c6_ed25519_schnorr_roundtrip (H512 : List ℕ → List ℕ)
    (penc : ZMod edOrder → List ℕ) (pdec : List ℕ → Option (ZMod edOrder))
    (hH : ∀ m, (H512 m).length = 64)
    (hpl : ∀ P, (penc P).length = 32)
    (hpd : ∀ P, pdec (penc P) = some P)
    (s P : ZMod edOrder) :
    edSign H512 penc s P =
      some (penc ((leNat (H512 (leBytes 32 s.val)) : ℕ) : ZMod edOrder) ++
        leBytes 32 (((leNat (H512 (leBytes 32 s.val)) : ℕ) : ZMod edOrder) +
          ((leNat (H512
            (penc ((leNat (H512 (leBytes 32 s.val)) : ℕ) : ZMod edOrder) ++
              penc s ++ penc P)) : ℕ) : ZMod edOrder) * s).val) ∧
    edVerify H512 penc pdec s P
      (penc ((leNat (H512 (leBytes 32 s.val)) : ℕ) : ZMod edOrder) ++
        leBytes 32 (((leNat (H512 (leBytes 32 s.val)) : ℕ) : ZMod edOrder) +
          ((leNat (H512
            (penc ((leNat (H512 (leBytes 32 s.val)) : ℕ) : ZMod edOrder) ++
              penc s ++ penc P)) : ℕ) : ZMod edOrder) * s).val) =
      some true := by
  set r : ZMod edOrder := ((leNat (H512 (leBytes 32 s.val)) : ℕ) : ZMod edOrder)
    with hr
  set c : ZMod edOrder := ((leNat (H512 (penc r ++ penc s ++ penc P)) : ℕ) :
    ZMod edOrder) with hc
  set S : ZMod edOrder := r + c * s with hS
  constructor
  · show (if (H512 (leBytes 32 s.val)).length ≠ 64 then none else _) = _
    rw [if_neg (by rw [hH]; decide)]
    show (if (H512 (penc r ++ penc s ++ penc P)).length ≠ 64 then none
      else _) = _
    rw [if_neg (by rw [hH]; decide)]
  · show (if (penc r ++ leBytes 32 S.val).length < 32 then none else _) = _
    rw [if_neg (by simp only [List.length_append, hpl, leBytes_length]; omega)]
    have htk : (penc r ++ leBytes 32 S.val).take 32 = penc r :=
      List.take_left' (hpl r)
    have hdr : (penc r ++ leBytes 32 S.val).drop 32 = leBytes 32 S.val :=
      List.drop_left' (hpl r)
    rw [htk, hdr]
    have htk2 : (leBytes 32 S.val ++ List.replicate 32 0).take 32 =
        leBytes 32 S.val := List.take_left' (leBytes_length 32 S.val)
    rw [htk2]
    show (if (H512 (penc r ++ penc s ++ penc P)).length ≠ 64 then some false
      else _) = _
    rw [if_neg (by rw [hH]; decide)]
    show (match pdec (penc r) with
      | none => some false
      | some R =>
        if edOrder ≤ leNat (leBytes 32 S.val) then some false
        else
          some (decide ((-c) * s +
            ((leNat (leBytes 32 S.val) : ℕ) : ZMod edOrder) = R))) = some true
    rw [hpd r]
    show (if edOrder ≤ leNat (leBytes 32 S.val) then some false
      else
        some (decide ((-c) * s +
          ((leNat (leBytes 32 S.val) : ℕ) : ZMod edOrder) = r))) = some true
    rw [if_neg (by
      rw [leNat_leBytes 32 S.val (lt_trans (ZMod.val_lt S) edOrder_lt)]
      exact not_le.2 (ZMod.val_lt S))]
    rw [show ((leNat (leBytes 32 S.val) : ℕ) : ZMod edOrder) = S from
      leBytes_roundtrip S]
    rw [show (-c) * s + S = r from by rw [hS]; ring]
    simp

/-- C6 (witness): with the constant hash `64 × 0x00` and the little-endian
canonical encoding as the point encoder, the signature of `s = 1` over
`P = 2` verifies. -/
theorem c6_ed25519_schnorr_roundtrip_witness :
    edVerify (fun _ => List.replicate 64 0) (fun x => leBytes 32 x.val)
      (fun l => some ((leNat l : ℕ) : ZMod edOrder)) 1 2
      ((fun x => leBytes 32 x.val)
          ((leNat ((fun _ => List.replicate 64 0)
            (leBytes 32 (1 : ZMod edOrder).val)) : ℕ) : ZMod edOrder) ++
        leBytes 32 ((((leNat ((fun _ => List.replicate 64 0)
            (leBytes 32 (1 : ZMod edOrder).val)) : ℕ) : ZMod edOrder)) +
          ((leNat ((fun _ => List.replicate 64 0) (List.nil : List ℕ)) : ℕ) :
            ZMod edOrder) * 1).val) = some true :=
  (c6_ed25519_schnorr_roundtrip (fun _ => List.replicate 64 0)
    (fun x => leBytes 32 x.val)
    (fun l => some ((leNat l : ℕ) : ZMod edOrder))
    (fun _ => List.length_replicate 64 0)
    (fun Q => leBytes_length 32 Q.val)
    (fun Q => congrArg some (leBytes_roundtrip Q)) 1 2).2

/-! ### Claim C5 -/

theorem beNat_append_singleton (l : List ℕ) (b : ℕ) :
    beNat (l ++ [b]) = 256 * beNat l + b := by
  simp [beNat, List.foldl_append]
  ring

theorem beNat_reverse (l : List ℕ) : beNat l.reverse = leNat l := by
  induction l with
  | nil => rfl
  | cons b t ih =>
    rw [List.reverse_cons, beNat_append_singleton, ih]
    show 256 * leNat t + b = b + 256 * leNat t
    ring

theorem beNat_cons_zero (t : List ℕ) : beNat (0 :: t) = beNat t := rfl

theorem beNat_dropWhile_zero (l : List ℕ) :
    beNat (l.dropWhile (· == 0)) = beNat l := by
  induction l with
  | nil => rfl
  | cons b t ih =>
    rw [List.dropWhile_cons]
    by_cases hb : b = 0
    · subst hb
      rw [if_pos (by decide)]
      rw [ih]
      exact (beNat_cons_zero t).symm
    · rw [if_neg (by simp [hb])]

theorem leNat_lt (l : List ℕ) (h : ∀ b ∈ l, b < 256) :
    leNat l < 256 ^ l.length := by
  induction l with
  | nil => show 0 < 256 ^ 0; norm_num
  | cons b t ih =>
    have hb : b < 256 := h b (by simp)
    have ht := ih (fun x hx => h x (by simp [hx]))
    show b + 256 * leNat t < 256 ^ (t.length + 1)
    rw [pow_succ]
    omega

theorem beNat_lt (l : List ℕ) (h : ∀ b ∈ l, b < 256) :
    beNat l < 256 ^ l.length := by
  have h2 : ∀ b ∈ l.reverse, b < 256 := fun b hb => h b (List.mem_reverse.mp hb)
  have h3 := leNat_lt l.reverse h2
  rw [← beNat_reverse l.reverse, List.reverse_reverse] at h3
  rwa [List.length_reverse] at h3

theorem leBytes_mem_lt (k : ℕ) : ∀ n, ∀ b ∈ leBytes k n, b < 256 := by
  induction k with
  | zero => intro n b hb; simp [leBytes] at hb
  | succ k ih =>
    intro n b hb
    simp only [leBytes, List.mem_cons] at hb
    rcases hb with h | h
    · exact h ▸ Nat.mod_lt _ (by norm_num)
    · exact ih (n / 256) b h

/-- C5 (counterexample): the ed25519 adapter hands the SHA3-512 digest to
`SetUniformBytes`, which reduces it as a LITTLE-endian integer, not the
big-endian integer the contract prescribes: already at the empty input the
two interpretations of the digest disagree mod the ed25519 group order, so
the two adapters do not share the digest interpretation either (the secp
adapter reduces big-endian). -/
theorem c5_counterexample :
    edHashToScalarNat [] ≠ hashToScalarSpecBE edOrder [] := by decide

/-- C5 (amended, secp side): whenever the big-endian residue of the digest
is at least `2^248` (so `big.Int.Bytes` is a full 32 bytes and the
front-aligned copy is the identity), the secp adapter returns exactly the
contract's value, SHA3-512 interpreted big-endian and reduced mod the
order.  (For smaller residues the value is shifted left by whole zero
bytes, or the adapter panics when the shift overflows the order.) -/
theorem c5_hash_to_scalar_secp (inp : List ℕ)
    (hbig : 2 ^ 248 ≤ beNat (sha3_512 inp) % secpOrder) :
    secpHashToScalar inp = some (hashToScalarSpecBE secpOrder inp) := by
  have hpos : 0 < secpOrder := by norm_num [secpOrder]
  set n := beNat (sha3_512 inp) % secpOrder with hn
  have hnlt : n < secpOrder := Nat.mod_lt _ hpos
  have hn256 : n < 2 ^ (8 * 32) := lt_trans hnlt (by norm_num [secpOrder])
  set bytes := ((leBytes 32 n).reverse).dropWhile (· == 0) with hbytes
  have hmem : ∀ b ∈ bytes, b < 256 := by
    intro b hb
    exact leBytes_mem_lt 32 n b
      (List.mem_reverse.mp ((List.dropWhile_sublist _).subset hb))
  have hbeq : beNat bytes = n := by
    rw [hbytes, beNat_dropWhile_zero, beNat_reverse, leNat_leBytes 32 n hn256]
  have hlen_le : bytes.length ≤ 32 := by
    have h1 : bytes.length ≤ (leBytes 32 n).reverse.length :=
      (List.dropWhile_sublist _).length_le
    rwa [List.length_reverse, leBytes_length] at h1
  have hlen : bytes.length = 32 := by
    by_contra hne
    have h2 : beNat bytes < 256 ^ bytes.length := beNat_lt bytes hmem
    have h3 : (256 : ℕ) ^ bytes.length ≤ 256 ^ 31 :=
      Nat.pow_le_pow_right (by norm_num) (by omega)
    have h5 : n < 2 ^ 248 := by
      calc n = beNat bytes := hbeq.symm
      _ < 256 ^ bytes.length := h2
      _ ≤ 256 ^ 31 := h3
      _ = 2 ^ 248 := by norm_num
    exact absurd hbig (not_le.2 h5)
  have hrep : List.replicate (32 - bytes.length) (0 : ℕ) = [] := by
    rw [hlen]
    simp
  show (if secpOrder ≤ beNat (bytes ++ List.replicate (32 - bytes.length) 0)
      then none
      else some (beNat (bytes ++ List.replicate (32 - bytes.length) 0))) =
    some (hashToScalarSpecBE secpOrder inp)
  rw [hrep, List.append_nil, hbeq, if_neg (not_le.2 hnlt)]
  rfl

/-- C5 (witness): at the empty input the digest's big-endian residue mod
the secp256k1 order is at least `2^248`, and the secp adapter returns the
contract's value there. -/
theorem c5_hash_to_scalar_secp_witness :
    2 ^ 248 ≤ beNat (sha3_512 []) % secpOrder ∧
      secpHashToScalar [] = some (hashToScalarSpecBE secpOrder []) :=
  ⟨by decide, c5_hash_to_scalar_secp [] (by decide)⟩

end DLEq
